import Mathlib

/-!
Shallow embedding of the AXI4 master transaction engine of `cocotbext-axi`
(`src/cocotbext/axi/axi_master.py`): the burst planners of
`AxiMasterWrite._process_write` and `AxiMasterRead._process_read`, the write
byte-lane / strobe shaping, the response aggregation of
`_process_write_resp` / `_process_read_resp`, the token/submission logic of
`init_write`, and the transaction-ID credit pool.  Machine integers are
modelled as `Nat`; Python bitwise operators map to the `Nat` bitwise
operators; `deque`s become `List`s.
-/

namespace Axi

/-- AXI response codes (`constants.AxiResp`). -/
inductive AxiResp where
  | OKAY
  | EXOKAY
  | SLVERR
  | DECERR
deriving DecidableEq

/-- `self.strb_mask = 2**self.byte_width-1` (axi_master.py line 71). -/
def strb_mask (W : Nat) : Nat := 2 ^ W - 1

/-- `self.max_burst_size = (self.byte_width-1).bit_length()` (line 74);
Python `bit_length` is `Nat.size`. -/
def max_burst_size (W : Nat) : Nat := Nat.size (W - 1)

/-- `self.max_burst_len = 256` (line 73). -/
def max_burst_len : Nat := 256

/-- One W-channel beat as assembled by `_process_write` (lines 199-254):
byte-lane window `[start, stop)`, strobe, packed data word, last flag. -/
structure WBeat where
  start : Nat
  stop : Nat
  strb : Nat
  wdata : Nat
  wlast : Bool
deriving DecidableEq

/-- One issued burst: the entry `(awid, burst_length)` of `burst_list`
(line 228) together with the address driven on AW (`aw.awaddr = cur_addr`,
line 232).  Identical shape on the read side (lines 475-479). -/
structure Burst where
  bid : Nat
  addr : Nat
  len : Nat
deriving DecidableEq

/-- The inner loop `for j in range(start, stop): val |= data[offset] << j*8;
offset += 1` (lines 210-213), recursing on the number `m = stop - start` of
lanes; `data.getD` stands for the Python indexing (which never goes out of
range, see the exact-consumption theorem). -/
def wdataVal (data : List Nat) : Nat → Nat → Nat → Nat
  | _, _, 0 => 0
  | offset, start, m + 1 =>
      data.getD offset 0 <<< (start * 8) ||| wdataVal data (offset + 1) (start + 1) m

/-- Loop state of `_process_write` (lines 188-196), plus the accumulated
`burst_list` and the W beats sent so far.  `t` counts ID-pool acquisitions:
the value of `self.id_queue.popleft()` at the `t`-th acquisition is
modelled by a stream `idOf t`. -/
structure WState where
  curAddr : Nat
  offset : Nat
  cycleOffset : Nat
  n : Nat
  burstLength : Nat
  t : Nat
  bursts : List Burst
  beats : List WBeat
deriving DecidableEq

/-- One iteration of `for k in range(cycles)` in `_process_write`
(lines 199-257). -/
def writeStep (W nb cycles startOffset endOffset : Nat) (data : List Nat)
    (idOf : Nat → Nat) (s : WState) (k : Nat) : WState :=
  let start := if k = 0 then startOffset else s.cycleOffset
  let stop := if k = cycles - 1 then endOffset else s.cycleOffset + nb
  let strb := (strb_mask W <<< start) &&& strb_mask W &&& (strb_mask W >>> (W - stop))
  let val := wdataVal data s.offset start (stop - start)
  if s.n ≥ s.burstLength then
    let awid := idOf s.t
    let bl0 := min (cycles - k) (min (max max_burst_len 1) 256)
    let bl := (min (bl0 * nb) (0x1000 - (s.curAddr &&& 0xfff)) + nb - 1) / nb
    { curAddr := s.curAddr + nb
      offset := s.offset + (stop - start)
      cycleOffset := (s.cycleOffset + nb) % W
      n := 1
      burstLength := bl
      t := s.t + 1
      bursts := s.bursts ++ [⟨awid, s.curAddr, bl⟩]
      beats := s.beats ++ [⟨start, stop, strb, val, decide (1 ≥ bl)⟩] }
  else
    { curAddr := s.curAddr + nb
      offset := s.offset + (stop - start)
      cycleOffset := (s.cycleOffset + nb) % W
      n := s.n + 1
      burstLength := s.burstLength
      t := s.t
      bursts := s.bursts
      beats := s.beats ++ [⟨start, stop, strb, val, decide (s.n + 1 ≥ s.burstLength)⟩] }

/-- `cycles = (len(data) + (address % num_bytes) + num_bytes-1) // num_bytes`
(line 186). -/
def cyclesOfWrite (nb A L : Nat) : Nat := (L + A % nb + nb - 1) / nb

/-- `end_offset = ((address + len(data) - 1) % self.byte_width) + 1`
(line 184); computed over `Int` because Python `%` of a negative number
(possible only for `address = len(data) = 0`) is nonnegative. -/
def endOffsetOf (W A L : Nat) : Nat := (((A : Int) + L - 1) % (W : Int) + 1).toNat

/-- Initial loop state of `_process_write` (lines 180-196):
`cur_addr = aligned_addr`, `offset = 0`,
`cycle_offset = aligned_addr - word_addr`, `n = 0`, `burst_length = 0`. -/
def writeInit (W nb A : Nat) : WState :=
  ⟨A / nb * nb, 0, A / nb * nb - A / W * W, 0, 0, 0, [], []⟩

/-- The whole shaping/planning loop of `_process_write` for one request,
with `W` the bus byte width and `nb = 2**size` the beat granularity. -/
def writeRun (W nb A : Nat) (data : List Nat) (idOf : Nat → Nat) : WState :=
  (List.range (cyclesOfWrite nb A data.length)).foldl
    (writeStep W nb (cyclesOfWrite nb A data.length) (A % W)
      (endOffsetOf W A data.length) data idOf)
    (writeInit W nb A)

/-- Loop state of `_process_read` (lines 453-458) plus `burst_list`. -/
structure RState where
  curAddr : Nat
  n : Nat
  burstLength : Nat
  t : Nat
  bursts : List Burst
deriving DecidableEq

/-- One iteration of `for k in range(cycles)` in `_process_read`
(lines 460-494); note `n += 1` happens before the new-burst check. -/
def readStep (nb cycles : Nat) (idOf : Nat → Nat) (s : RState) (k : Nat) : RState :=
  let n1 := s.n + 1
  if n1 ≥ s.burstLength then
    let arid := idOf s.t
    let bl0 := min (cycles - k) (min (max max_burst_len 1) 256)
    let bl := (min (bl0 * nb) (0x1000 - (s.curAddr &&& 0xfff)) + nb - 1) / nb
    ⟨s.curAddr + nb, 0, bl, s.t + 1, s.bursts ++ [⟨arid, s.curAddr, bl⟩]⟩
  else
    ⟨s.curAddr + nb, n1, s.burstLength, s.t, s.bursts⟩

/-- `cycles = (length + num_bytes-1 + (address % num_bytes)) // num_bytes`
(line 451). -/
def cyclesOfRead (nb A L : Nat) : Nat := (L + nb - 1 + A % nb) / nb

/-- The whole planning loop of `_process_read` for one request. -/
def readRun (nb A L : Nat) (idOf : Nat → Nat) : RState :=
  (List.range (cyclesOfRead nb A L)).foldl (readStep nb (cyclesOfRead nb A L) idOf)
    ⟨A / nb * nb, 0, 0, 0, []⟩

/-- Reassembly state of `_process_read_resp` (lines 515-521): the rolling
`cycle_offset`, the `first` flag and the `data` bytearray. -/
structure RRState where
  cycleOffset : Nat
  first : Bool
  buf : List Nat
deriving DecidableEq

/-- Per-beat byte-lane slicing of `_process_read_resp` (lines 549-562):
`start = cycle_offset` (or `start_offset` on the very first beat),
`stop = cycle_offset + num_bytes`, append `(rdata >> j*8) & 0xff` for
`j in range(start, stop)`. -/
def readRespBeat (W nb startOffset : Nat) (s : RRState) (rdata : Nat) : RRState :=
  let start := if s.first then startOffset else s.cycleOffset
  let stop := s.cycleOffset + nb
  ⟨(s.cycleOffset + nb) % W, false,
    s.buf ++ (List.range (stop - start)).map (fun i => rdata >>> ((start + i) * 8) &&& 0xff)⟩

/-- Initial reassembly state (lines 507-521):
`cycle_offset = aligned_addr - word_addr`, `first = True`, empty buffer. -/
def readRespInit (W nb A : Nat) : RRState :=
  ⟨A / nb * nb - A / W * W, true, []⟩

/-- The nested loop `for rid, burst_length in burst_list: for k in
range(burst_length): ...` of `_process_read_resp`, consuming the R-beat
data words received for each burst in order. -/
def readRespRun (W nb A : Nat) (resps : List (List Nat)) : RRState :=
  resps.foldl (fun st rs => rs.foldl (readRespBeat W nb (A % W)) st) (readRespInit W nb A)

/-- Modelled from the spec: the backing slave memory (the test-side memory
model, outside `src/`) "stores strobed write lanes": a W beat with word base
address `base` updates byte `base + j` to lane `j` of `wdata` exactly when
strobe bit `j` is set. -/
def applyWBeat (W base wdata wstrb : Nat) (mem : Nat → Nat) : Nat → Nat :=
  fun x =>
    if base ≤ x ∧ x < base + W ∧ wstrb.testBit (x - base) = true then
      wdata >>> ((x - base) * 8) &&& 0xff
    else mem x

/-- Modelled from the spec: the slave applies the `len` beats of a write
burst with AW address `addr` at the word-aligned per-beat addresses
`((addr + i*nb) / W) * W` (AXI INCR bursts). -/
def ramWriteBurst (W nb addr : Nat) : List WBeat → Nat → (Nat → Nat) → Nat → Nat
  | [], _, mem => mem
  | w :: ws, i, mem =>
      ramWriteBurst W nb addr ws (i + 1)
        (applyWBeat W ((addr + i * nb) / W * W) w.wdata w.strb mem)

/-- Modelled from the spec: the slave consumes the issued bursts in order,
each burst taking its `len` beats from the W-channel beat stream. -/
def ramWriteBursts (W nb : Nat) : List Burst → List WBeat → (Nat → Nat) → Nat → Nat
  | [], _, mem => mem
  | b :: bs, ws, mem =>
      ramWriteBursts W nb bs (ws.drop b.len) (ramWriteBurst W nb b.addr (ws.take b.len) 0 mem)

/-- Modelled from the spec: the slave "returns the stored lanes on read" -
the R data word at word base address `base` packs the `w` bytes
`mem base, mem (base+1), ...` little-endian. -/
def wordAt (mem : Nat → Nat) : Nat → Nat → Nat
  | _, 0 => 0
  | base, w + 1 => mem base + 256 * wordAt mem (base + 1) w

/-- Modelled from the spec: R beats returned for a read burst with AR
address `addr` and `len` beats. -/
def ramReadBurst (W nb : Nat) (mem : Nat → Nat) (addr len : Nat) : List Nat :=
  (List.range len).map (fun i => wordAt mem ((addr + i * nb) / W * W) W)

/-- End-to-end write of one request against the backing memory:
`_process_write` plans bursts and shapes beats; the slave memory applies
them.  `W = 2^wl`, `nb = 2^size`. -/
def writeToMem (wl size A : Nat) (data : List Nat) (idOf : Nat → Nat)
    (mem : Nat → Nat) : Nat → Nat :=
  let st := writeRun (2 ^ wl) (2 ^ size) A data idOf
  ramWriteBursts (2 ^ wl) (2 ^ size) st.bursts st.beats mem

/-- End-to-end read of one request: `_process_read` plans bursts, the slave
returns the stored words, `_process_read_resp` reassembles and truncates to
`length` (`data = data[:length]`, line 571). -/
def readFromMem (wl size A L : Nat) (idOf : Nat → Nat) (mem : Nat → Nat) : List Nat :=
  let st := readRun (2 ^ size) A L idOf
  let resps := st.bursts.map (fun b => ramReadBurst (2 ^ wl) (2 ^ size) mem b.addr b.len)
  (readRespRun (2 ^ wl) (2 ^ size) A resps).buf.take L

/-- Response aggregation of `_process_write_resp` (lines 270, 290-291):
start from `OKAY`, overwrite with every non-`OKAY` beat response. -/
def write_resp_agg (rs : List AxiResp) : AxiResp :=
  rs.foldl (fun resp r => if r ≠ AxiResp.OKAY then r else resp) AxiResp.OKAY

/-- Response aggregation of `_process_read_resp` (lines 518, 543-544):
same fold on the read side. -/
def read_resp_agg (rs : List AxiResp) : AxiResp :=
  rs.foldl (fun resp r => if r ≠ AxiResp.OKAY then r else resp) AxiResp.OKAY

/-- A queued write command as appended to `write_command_queue` (line 92),
restricted to the fields the claims are about. -/
structure WriteCmd where
  address : Nat
  data : List Nat
  size : Option Nat
  token : Option Nat
deriving DecidableEq

/-- `AxiMasterWrite.init_write` (lines 84-93): duplicate-token check, then
append to the intake queue.  Tokens are modelled as `Nat`;
`active_tokens` as a list.  No other validation happens here. -/
def init_write (activeTokens : List Nat) (queue : List WriteCmd) (address : Nat)
    (data : List Nat) (size : Option Nat) (token : Option Nat) :
    Except String (List Nat × List WriteCmd) :=
  match token with
  | some tk =>
      if tk ∈ activeTokens then Except.error "Token is not unique"
      else Except.ok (activeTokens ++ [tk], queue ++ [⟨address, data, size, token⟩])
  | none => Except.ok (activeTokens, queue ++ [⟨address, data, size, token⟩])

/-- Head of `_process_write` (lines 172-178): `num_bytes = self.byte_width`
unless a size is given, in which case `num_bytes = 2**size` and
`assert 0 < num_bytes <= self.byte_width` runs inside the issue task. -/
def processWriteCmd (W A : Nat) (data : List Nat) (size : Option Nat)
    (idOf : Nat → Nat) : Except String WState :=
  match size with
  | none => Except.ok (writeRun W W A data idOf)
  | some sz =>
      if 0 < 2 ^ sz ∧ 2 ^ sz ≤ W then Except.ok (writeRun W (2 ^ sz) A data idOf)
      else Except.error "Invalid burst size"

/-- ID credit pool: `self.id_queue` (line 59) plus the multiset of IDs
currently held by outstanding bursts. -/
structure IdPoolState where
  pool : List Nat
  outstanding : Multiset Nat

/-- `deque(range(2**len(awid)))` (line 59): initially all IDs free. -/
def idPoolInit (idw : Nat) : IdPoolState :=
  ⟨List.range (2 ^ idw), 0⟩

/-- `awid = self.id_queue.popleft()` (line 220); suspends (`none`) when the
pool is empty (lines 216-218). -/
def acquireId (s : IdPoolState) : Option (Nat × IdPoolState) :=
  match s.pool with
  | [] => none
  | i :: rest => some (i, ⟨rest, i ::ₘ s.outstanding⟩)

/-- Release of a burst ID by the response task (lines 296-299): fatal
`Unexpected burst ID` if it is already in the pool, otherwise append. -/
def releaseId (i : Nat) (s : IdPoolState) : Except String IdPoolState :=
  if i ∈ s.pool then Except.error "Unexpected burst ID"
  else Except.ok ⟨s.pool ++ [i], s.outstanding.erase i⟩

/-- One scheduler-visible step on the shared ID pool: the issue task
acquires an ID for a burst, or the response task releases the ID of a
completed burst (an ID it is actually holding). -/
inductive IdStep : IdPoolState → IdPoolState → Prop
  | acq (s : IdPoolState) (i : Nat) (s' : IdPoolState) :
      acquireId s = some (i, s') → IdStep s s'
  | rel (s : IdPoolState) (i : Nat) (s' : IdPoolState) :
      i ∈ s.outstanding → releaseId i s = Except.ok s' → IdStep s s'

/-- Executions of the engine, projected onto the ID pool. -/
def IdReachable (idw : Nat) (s : IdPoolState) : Prop :=
  Relation.ReflTransGen IdStep (idPoolInit idw) s

/-! ### Arithmetic helper lemmas -/

lemma and_fff (x : Nat) : x &&& 0xfff = x % 4096 := by
  have h := Nat.and_pow_two_sub_one_eq_mod x 12
  norm_num at h
  exact h

lemma ceilDiv_mul_of_dvd {nb m : Nat} (hnb : 0 < nb) (hd : nb ∣ m) :
    (m + nb - 1) / nb * nb = m := by
  obtain ⟨q, rfl⟩ := hd
  have h1 := Nat.div_add_mod' (nb * q + nb - 1) nb
  have h2 : (nb * q + nb - 1) % nb = nb - 1 := by
    rw [show nb * q + nb - 1 = nb - 1 + nb * q from by omega, Nat.add_mul_mod_self_left]
    exact Nat.mod_eq_of_lt (by omega)
  omega

/-- Bounds for the `burst_length` computed at lines 225-226 (write) and
472-473 (read): always between 1 and 256. -/
lemma burstLen_bounds (nb a rem : Nat) (hnb : 0 < nb) (hrem : 0 < rem) :
    1 ≤ (min (min rem (min (max max_burst_len 1) 256) * nb) (0x1000 - (a &&& 0xfff)) + nb - 1) / nb ∧
      (min (min rem (min (max max_burst_len 1) 256) * nb) (0x1000 - (a &&& 0xfff)) + nb - 1) / nb ≤ 256 := by
  rw [show min (max max_burst_len 1) 256 = 256 from by decide, and_fff]
  have h1 : 1 ≤ min rem 256 := by omega
  have h2 : min rem 256 ≤ 256 := min_le_right _ _
  have hg1 : 1 ≤ 0x1000 - a % 4096 := by
    have := Nat.mod_lt a (show 0 < 4096 by norm_num)
    omega
  have hml2 : nb ≤ min rem 256 * nb := Nat.le_mul_of_pos_left nb h1
  have hmu : min rem 256 * nb ≤ 256 * nb := Nat.mul_le_mul_right nb h2
  constructor
  · refine (Nat.le_div_iff_mul_le hnb).mpr ?_
    have : 1 ≤ min (min rem 256 * nb) (0x1000 - a % 4096) := by omega
    omega
  · have hlt : min (min rem 256 * nb) (0x1000 - a % 4096) + nb - 1 < 257 * nb := by omega
    have := (Nat.div_lt_iff_lt_mul hnb).mpr hlt
    omega

/-- The 4 KiB-boundary property of the `burst_length` computed at
lines 225-226 / 472-473, provided the transfer size divides `0x1000`. -/
lemma burstLen_4k (nb a rem : Nat) (hnb : 0 < nb) (hrem : 0 < rem)
    (hdvd : nb ∣ 4096) (hadvd : nb ∣ a) :
    a % 0x1000 +
        (min (min rem (min (max max_burst_len 1) 256) * nb) (0x1000 - (a &&& 0xfff)) + nb - 1) / nb * nb ≤
      0x1000 := by
  rw [show min (max max_burst_len 1) 256 = 256 from by decide, and_fff]
  have hdm : nb ∣ a % 4096 := (Nat.dvd_mod_iff hdvd).mpr hadvd
  have hdg : nb ∣ 4096 - a % 4096 := Nat.dvd_sub' hdvd hdm
  have hdbl : nb ∣ min (min rem 256 * nb) (4096 - a % 4096) := by
    rcases min_cases (min rem 256 * nb) (4096 - a % 4096) with ⟨h, _⟩ | ⟨h, _⟩ <;> rw [h]
    · exact dvd_mul_left nb (min rem 256)
    · exact hdg
  rw [show (4096 : Nat) - a % 4096 = 0x1000 - a % 4096 from rfl] at hdbl
  rw [ceilDiv_mul_of_dvd hnb hdbl]
  have hle : min (min rem 256 * nb) (0x1000 - a % 4096) ≤ 0x1000 - a % 4096 := min_le_right _ _
  have := Nat.mod_lt a (show 0 < 4096 by norm_num)
  omega

/-- Fold-invariant principle for the per-beat loops `for k in range(cycles)`. -/
lemma foldl_range_inv {σ : Type _} (step : σ → Nat → σ) (P : σ → Prop) :
    ∀ (n : Nat) (s0 : σ), (∀ s k, k < n → P s → P (step s k)) → P s0 →
      P ((List.range n).foldl step s0) := by
  intro n
  induction n with
  | zero => intro s0 _ h0; simpa using h0
  | succ n ih =>
    intro s0 hstep h0
    rw [List.range_succ, List.foldl_append]
    exact hstep _ n (Nat.lt_succ_self n)
      (ih s0 (fun s k hk hP => hstep s k (Nat.lt_succ_of_lt hk) hP) h0)

/-! ### Planner equivalence (write loop vs read loop) -/

/-- Line 186 and line 451 compute the same number of beats. -/
lemma cycles_eq (nb A L : Nat) (hnb : 0 < nb) :
    cyclesOfWrite nb A L = cyclesOfRead nb A L := by
  unfold cyclesOfWrite cyclesOfRead
  congr 1
  omega

/-- The write planner (check `n >= burst_length` before incrementing,
lines 215-247) and the read planner (increment before checking,
lines 462-463) produce the same burst list from the same ID stream. -/
lemma plan_bursts_eq (W nb A : Nat) (data : List Nat) (idOf : Nat → Nat) (hnb : 0 < nb) :
    (writeRun W nb A data idOf).bursts = (readRun nb A data.length idOf).bursts := by
  unfold writeRun readRun
  rw [← cycles_eq nb A data.length hnb]
  set c := cyclesOfWrite nb A data.length with hc
  set wstep := writeStep W nb c (A % W) (endOffsetOf W A data.length) data idOf with hwstep
  set rstep := readStep nb c idOf with hrstep
  have key : ∀ t : Nat,
      ((List.range t).foldl wstep (writeInit W nb A)).bursts =
          ((List.range t).foldl rstep ⟨A / nb * nb, 0, 0, 0, []⟩).bursts ∧
        ((List.range t).foldl wstep (writeInit W nb A)).curAddr =
          ((List.range t).foldl rstep ⟨A / nb * nb, 0, 0, 0, []⟩).curAddr ∧
        ((List.range t).foldl wstep (writeInit W nb A)).t =
          ((List.range t).foldl rstep ⟨A / nb * nb, 0, 0, 0, []⟩).t ∧
        (((List.range t).foldl wstep (writeInit W nb A)).n =
              ((List.range t).foldl rstep ⟨A / nb * nb, 0, 0, 0, []⟩).n + 1 ∧
            ((List.range t).foldl wstep (writeInit W nb A)).burstLength =
              ((List.range t).foldl rstep ⟨A / nb * nb, 0, 0, 0, []⟩).burstLength ∨
          ((List.range t).foldl wstep (writeInit W nb A)).n = 0 ∧
            ((List.range t).foldl wstep (writeInit W nb A)).burstLength = 0 ∧
            ((List.range t).foldl rstep ⟨A / nb * nb, 0, 0, 0, []⟩).n = 0 ∧
            ((List.range t).foldl rstep ⟨A / nb * nb, 0, 0, 0, []⟩).burstLength = 0) := by
    intro t
    induction t with
    | zero => simp [writeInit]
    | succ t ih =>
      rw [List.range_succ, List.foldl_append, List.foldl_append]
      set sw := (List.range t).foldl wstep (writeInit W nb A) with hsw
      set sr := (List.range t).foldl rstep ⟨A / nb * nb, 0, 0, 0, []⟩ with hsr
      obtain ⟨hb, ha, ht, hrel⟩ := ih
      simp only [List.foldl_cons, List.foldl_nil]
      rcases hrel with ⟨hn, hbl⟩ | ⟨hn0, hbl0, hrn0, hrbl0⟩
      · by_cases hcond : sr.n + 1 ≥ sr.burstLength
        · have hwcond : sw.n ≥ sw.burstLength := by omega
          simp only [hwstep, hrstep, writeStep, readStep, if_pos hwcond, if_pos hcond,
            hb, ha, ht]
          exact ⟨by trivial, by trivial, by trivial, Or.inl ⟨by trivial, by trivial⟩⟩
        · have hwcond : ¬ sw.n ≥ sw.burstLength := by omega
          simp only [hwstep, hrstep, writeStep, readStep, if_neg hwcond, if_neg hcond,
            hb, ha, ht]
          exact ⟨by trivial, by trivial, by trivial, Or.inl ⟨by omega, by omega⟩⟩
      · have hwcond : sw.n ≥ sw.burstLength := by omega
        have hrcond : sr.n + 1 ≥ sr.burstLength := by omega
        simp only [hwstep, hrstep, writeStep, readStep, if_pos hwcond, if_pos hrcond,
          hb, ha, ht]
        exact ⟨by trivial, by trivial, by trivial, Or.inl ⟨by trivial, by trivial⟩⟩
  exact (key c).1

/-! ### Burst-list invariants -/

/-- Every burst planned by `_process_write` has `1 ≤ beats ≤ 256`. -/
lemma write_bursts_len_bounds (W nb A : Nat) (data : List Nat) (idOf : Nat → Nat)
    (hnb : 0 < nb) :
    ∀ b ∈ (writeRun W nb A data idOf).bursts, 1 ≤ b.len ∧ b.len ≤ 256 := by
  unfold writeRun
  refine foldl_range_inv _ (fun s : WState => ∀ b ∈ s.bursts, 1 ≤ b.len ∧ b.len ≤ 256) _ _
    ?_ (by simp [writeInit])
  intro s k hk hP
  by_cases hc : s.n ≥ s.burstLength
  · simp only [writeStep, if_pos hc]
    intro b hb
    rcases List.mem_append.mp hb with hb | hb
    · exact hP b hb
    · have hb' : b = ⟨idOf s.t, s.curAddr,
          (min (min (cyclesOfWrite nb A data.length - k) (min (max max_burst_len 1) 256) * nb)
              (0x1000 - (s.curAddr &&& 0xfff)) + nb - 1) / nb⟩ := by
        simpa using hb
      subst hb'
      exact burstLen_bounds nb s.curAddr (cyclesOfWrite nb A data.length - k) hnb (by omega)
  · simp only [writeStep, if_neg hc]
    exact hP

/-- Every burst planned by `_process_write` starts at an address divisible
by the beat size and obeys the 4 KiB rule, provided `nb ∣ 0x1000`. -/
lemma write_bursts_4k (W nb A : Nat) (data : List Nat) (idOf : Nat → Nat)
    (hnb : 0 < nb) (hdvd : nb ∣ 4096) :
    ∀ b ∈ (writeRun W nb A data idOf).bursts, b.addr % 0x1000 + b.len * nb ≤ 0x1000 := by
  unfold writeRun
  have main : nb ∣ ((List.range (cyclesOfWrite nb A data.length)).foldl
        (writeStep W nb (cyclesOfWrite nb A data.length) (A % W)
          (endOffsetOf W A data.length) data idOf) (writeInit W nb A)).curAddr ∧
      ∀ b ∈ ((List.range (cyclesOfWrite nb A data.length)).foldl
        (writeStep W nb (cyclesOfWrite nb A data.length) (A % W)
          (endOffsetOf W A data.length) data idOf) (writeInit W nb A)).bursts,
        b.addr % 0x1000 + b.len * nb ≤ 0x1000 := by
    refine foldl_range_inv _ (fun s : WState => nb ∣ s.curAddr ∧
      ∀ b ∈ s.bursts, b.addr % 0x1000 + b.len * nb ≤ 0x1000) _ _
      ?_ ⟨dvd_mul_left nb (A / nb), by simp [writeInit]⟩
    intro s k hk hP
    obtain ⟨hPa, hPb⟩ := hP
    by_cases hc : s.n ≥ s.burstLength
    · simp only [writeStep, if_pos hc]
      refine ⟨Nat.dvd_add hPa dvd_rfl, ?_⟩
      intro b hb
      rcases List.mem_append.mp hb with hb | hb
      · exact hPb b hb
      · have hb' : b = ⟨idOf s.t, s.curAddr,
            (min (min (cyclesOfWrite nb A data.length - k) (min (max max_burst_len 1) 256) * nb)
                (0x1000 - (s.curAddr &&& 0xfff)) + nb - 1) / nb⟩ := by
          simpa using hb
        subst hb'
        exact burstLen_4k nb s.curAddr (cyclesOfWrite nb A data.length - k) hnb (by omega)
          hdvd hPa
    · simp only [writeStep, if_neg hc]
      exact ⟨Nat.dvd_add hPa dvd_rfl, hPb⟩
  exact main.2

/-! ### Response aggregation helper lemmas -/

lemma respAgg_all_okay (rs : List AxiResp) (acc : AxiResp)
    (h : ∀ r ∈ rs, r = AxiResp.OKAY) :
    rs.foldl (fun resp r => if r ≠ AxiResp.OKAY then r else resp) acc = acc := by
  induction rs generalizing acc with
  | nil => rfl
  | cons x rest ih =>
    have hx : x = AxiResp.OKAY := h x (by simp)
    subst hx
    simp only [List.foldl_cons, ne_eq, not_true_eq_false, if_neg, ite_false]
    exact ih acc (fun r hr => h r (by simp [hr]))

lemma respAgg_ne_okay (rs : List AxiResp) (acc : AxiResp) (hacc : acc ≠ AxiResp.OKAY) :
    rs.foldl (fun resp r => if r ≠ AxiResp.OKAY then r else resp) acc ≠ AxiResp.OKAY := by
  induction rs generalizing acc with
  | nil => exact hacc
  | cons x rest ih =>
    simp only [List.foldl_cons]
    by_cases hx : x = AxiResp.OKAY
    · subst hx
      simpa using ih acc hacc
    · simpa [hx] using ih x hx

lemma respAgg_ne_of_mem (rs : List AxiResp) (acc : AxiResp) (r : AxiResp)
    (hr : r ∈ rs) (hne : r ≠ AxiResp.OKAY) :
    rs.foldl (fun resp r => if r ≠ AxiResp.OKAY then r else resp) acc ≠ AxiResp.OKAY := by
  induction rs generalizing acc with
  | nil => cases hr
  | cons x rest ih =>
    simp only [List.foldl_cons]
    rcases List.mem_cons.mp hr with rfl | hr'
    · by_cases hx : r = AxiResp.OKAY
      · exact absurd hx hne
      · simpa [hx] using respAgg_ne_okay rest r hx
    · exact ih _ hr'

lemma respAgg_last (rs : List AxiResp) (acc : AxiResp) :
    rs.foldl (fun resp r => if r ≠ AxiResp.OKAY then r else resp) acc =
      (rs.filter (fun r => decide (r ≠ AxiResp.OKAY))).getLastD acc := by
  induction rs generalizing acc with
  | nil => rfl
  | cons x rest ih =>
    by_cases hx : x = AxiResp.OKAY
    · subst hx
      simpa using ih acc
    · simp only [List.foldl_cons, List.filter_cons, decide_eq_true_eq, hx, if_pos,
        ne_eq, not_false_eq_true, List.getLastD_cons]
      simpa [hx] using ih x

/-! ### Claim theorems C2, C3, C5, C6, C8 -/

/-- C3: every burst descriptor produced by the write or the read planner,
for a valid request (`data_length ≥ 1`, `1 ≤ 2^size_log2 ≤ W`), has
`1 ≤ beats ≤ 256`. -/
theorem burst_length_bound (wl size A L : Nat) (data : List Nat) (idOf idOf2 : Nat → Nat)
    (hL : 1 ≤ data.length) (hLr : 1 ≤ L) (hsz : 2 ^ size ≤ 2 ^ wl) :
    (∀ b ∈ (writeRun (2 ^ wl) (2 ^ size) A data idOf).bursts, 1 ≤ b.len ∧ b.len ≤ 256) ∧
      ∀ b ∈ (readRun (2 ^ size) A L idOf2).bursts, 1 ≤ b.len ∧ b.len ≤ 256 := by
  refine ⟨write_bursts_len_bounds _ _ _ _ _ (Nat.two_pow_pos size), ?_⟩
  have h := plan_bursts_eq (2 ^ wl) (2 ^ size) A (List.replicate L 0) idOf2 (Nat.two_pow_pos size)
  rw [List.length_replicate] at h
  rw [← h]
  exact write_bursts_len_bounds _ _ _ _ _ (Nat.two_pow_pos size)

theorem burst_length_bound_witness :
    1 ≤ ([0xAA, 0xBB, 0xCB, 0xDD, 0xEE] : List Nat).length ∧ (1 : Nat) ≤ 5 ∧ 2 ^ 0 ≤ 2 ^ 2 ∧
      ((∀ b ∈ (writeRun (2 ^ 2) (2 ^ 0) 0x1003 [0xAA, 0xBB, 0xCB, 0xDD, 0xEE] (fun t => t)).bursts,
          1 ≤ b.len ∧ b.len ≤ 256) ∧
        ∀ b ∈ (readRun (2 ^ 0) 0x1003 5 (fun t => t)).bursts, 1 ≤ b.len ∧ b.len ≤ 256) :=
  ⟨by decide, by decide, by decide,
    burst_length_bound 2 0 0x1003 5 [0xAA, 0xBB, 0xCB, 0xDD, 0xEE] (fun t => t) (fun t => t)
      (by decide) (by decide) (by decide)⟩

/-- C2 counterexample: for transfer size `2^13` (which the claim's
quantification over `size_log2` admits, since nothing bounds the bus byte
width), the planner emits a burst violating
`addr % 0x1000 + beats * 2^size ≤ 0x1000`: at `address = 0`,
`data = [0]`, `size_log2 = 13` the single planned burst is
`(id 0, addr 0, 1 beat)` and `0 % 0x1000 + 1 * 2^13 > 0x1000`. -/
theorem four_kib_boundary_counterexample :
    (⟨0, 0, 1⟩ : Burst) ∈ (writeRun (2 ^ 13) (2 ^ 13) 0 [0] (fun t => t)).bursts ∧
      ¬ ((0 : Nat) % 0x1000 + 1 * 2 ^ 13 ≤ 0x1000) := by
  constructor
  · decide
  · decide

/-- C2 (amended): for every request whose transfer size is a legal AXI4
size, i.e. `2^size_log2` divides `0x1000` (`size_log2 ≤ 12`; AXI4 itself
caps `size_log2` at 7), every burst issued by the write or the read
planner satisfies `addr % 0x1000 + beats * 2^size ≤ 0x1000`. -/
theorem four_kib_boundary_amended (wl size A L : Nat) (data : List Nat)
    (idOf idOf2 : Nat → Nat) (hsz : size ≤ 12) :
    (∀ b ∈ (writeRun (2 ^ wl) (2 ^ size) A data idOf).bursts,
        b.addr % 0x1000 + b.len * 2 ^ size ≤ 0x1000) ∧
      ∀ b ∈ (readRun (2 ^ size) A L idOf2).bursts,
        b.addr % 0x1000 + b.len * 2 ^ size ≤ 0x1000 := by
  have hdvd : (2 : Nat) ^ size ∣ 4096 := by
    have : (4096 : Nat) = 2 ^ 12 := by norm_num
    rw [this]
    exact pow_dvd_pow 2 hsz
  refine ⟨write_bursts_4k _ _ _ _ _ (Nat.two_pow_pos size) hdvd, ?_⟩
  have h := plan_bursts_eq (2 ^ wl) (2 ^ size) A (List.replicate L 0) idOf2 (Nat.two_pow_pos size)
  rw [List.length_replicate] at h
  rw [← h]
  exact write_bursts_4k _ _ _ _ _ (Nat.two_pow_pos size) hdvd

theorem four_kib_boundary_amended_witness :
    (3 : Nat) ≤ 12 ∧
      ((∀ b ∈ (writeRun (2 ^ 3) (2 ^ 3) 0x0FF0 (List.replicate 32 1) (fun t => t)).bursts,
          b.addr % 0x1000 + b.len * 2 ^ 3 ≤ 0x1000) ∧
        ∀ b ∈ (readRun (2 ^ 3) 0x0FF0 32 (fun t => t)).bursts,
          b.addr % 0x1000 + b.len * 2 ^ 3 ≤ 0x1000) :=
  ⟨by decide,
    four_kib_boundary_amended 3 3 0x0FF0 32 (List.replicate 32 1) (fun t => t) (fun t => t)
      (by decide)⟩

/-- C8: the read planner (which increments the beat counter before the
new-burst check, line 462) and the write planner (which checks before
incrementing, line 215) produce identical burst lists - same `(id, address,
beats)` sequence - for the same request and the same ID stream. -/
theorem planner_equivalence (wl size A : Nat) (data : List Nat) (idOf : Nat → Nat) :
    (writeRun (2 ^ wl) (2 ^ size) A data idOf).bursts =
      (readRun (2 ^ size) A data.length idOf).bursts :=
  plan_bursts_eq (2 ^ wl) (2 ^ size) A data idOf (Nat.two_pow_pos size)

/-- C5: for both the write and the read response task, the aggregate
response is `OKAY` iff every consumed beat response was `OKAY`, and
otherwise equals the most recent (last-consumed) non-`OKAY` response. -/
theorem response_aggregation (brs rrs : List AxiResp) :
    (write_resp_agg brs = AxiResp.OKAY ↔ ∀ r ∈ brs, r = AxiResp.OKAY) ∧
      write_resp_agg brs =
        (brs.filter (fun r => decide (r ≠ AxiResp.OKAY))).getLastD AxiResp.OKAY ∧
      (read_resp_agg rrs = AxiResp.OKAY ↔ ∀ r ∈ rrs, r = AxiResp.OKAY) ∧
      read_resp_agg rrs =
        (rrs.filter (fun r => decide (r ≠ AxiResp.OKAY))).getLastD AxiResp.OKAY := by
  refine ⟨⟨fun h => ?_, fun h => respAgg_all_okay brs _ h⟩, respAgg_last brs _,
    ⟨fun h => ?_, fun h => respAgg_all_okay rrs _ h⟩, respAgg_last rrs _⟩
  · intro r hr
    by_contra hne
    exact respAgg_ne_of_mem brs AxiResp.OKAY r hr hne h
  · intro r hr
    by_contra hne
    exact respAgg_ne_of_mem rrs AxiResp.OKAY r hr hne h

/-- C6 counterexample: a write with empty data is NOT rejected at
submission: `init_write` succeeds and the request enters the intake queue
(there is no empty-request check anywhere in `init_write`,
lines 84-93). -/
theorem submission_errors_counterexample :
    init_write [] [] 5 [] none none = Except.ok ([], [⟨5, [], none, none⟩]) := rfl

/-- C6 (amended): only the duplicate-token error is synchronous: it is
raised by `init_write` before the request enters the intake queue.  The
size check `2^size_log2 ≤ W` is enforced by an assertion inside the
asynchronous issue task (`_process_write`, line 178), after the request
has been queued by `init_write`; and an empty write is never rejected -
it is accepted at submission. -/
theorem submission_errors_amended (active : List Nat) (queue : List WriteCmd)
    (addr W : Nat) (data : List Nat) (sz : Nat) (szo : Option Nat) (tk : Nat)
    (idOf : Nat → Nat) (hdup : tk ∈ active) (hsz : W < 2 ^ sz) :
    init_write active queue addr data szo (some tk) = Except.error "Token is not unique" ∧
      init_write [] queue addr data (some sz) none =
        Except.ok ([], queue ++ [⟨addr, data, some sz, none⟩]) ∧
      processWriteCmd W addr data (some sz) idOf = Except.error "Invalid burst size" ∧
      init_write [] queue addr [] none none = Except.ok ([], queue ++ [⟨addr, [], none, none⟩]) := by
  refine ⟨?_, rfl, ?_, rfl⟩
  · simp [init_write, hdup]
  · have hc : ¬ (0 < 2 ^ sz ∧ 2 ^ sz ≤ W) := by
      rintro ⟨-, h⟩
      omega
    simp only [processWriteCmd]
    rw [if_neg hc]

theorem submission_errors_amended_witness :
    (7 : Nat) ∈ [7] ∧ (4 : Nat) < 2 ^ 3 ∧
      init_write [7] [] 0 [1] none (some 7) = Except.error "Token is not unique" :=
  ⟨by decide, by decide,
    (submission_errors_amended [7] [] 0 4 [1] 3 none 7 (fun t => t) (by decide) (by decide)).1⟩

/-! ### ID credit pool conservation (C9) -/

/-- Conservation invariant: the free pool plus the outstanding IDs always
form the initial ID multiset. -/
def poolInv (idw : Nat) (s : IdPoolState) : Prop :=
  (s.pool : Multiset Nat) + s.outstanding = ((List.range (2 ^ idw) : List Nat) : Multiset Nat)

lemma idStep_inv {idw : Nat} {s s' : IdPoolState} (h : IdStep s s')
    (hinv : poolInv idw s) : poolInv idw s' := by
  unfold poolInv at hinv ⊢
  rcases h with ⟨i, s2, hacq⟩ | ⟨i, s2, hmem, hrel⟩
  · rcases s with ⟨pool, out⟩
    cases pool with
    | nil => simp [acquireId] at hacq
    | cons x rest =>
      simp only [acquireId, Option.some.injEq, Prod.mk.injEq] at hacq
      obtain ⟨rfl, rfl⟩ := hacq
      rw [show ((x :: rest : List Nat) : Multiset Nat) = x ::ₘ (rest : Multiset Nat) from rfl,
        Multiset.cons_add] at hinv
      rw [Multiset.add_cons]
      exact hinv
  · rcases s with ⟨pool, out⟩
    unfold releaseId at hrel
    by_cases hip : i ∈ pool
    · simp [hip] at hrel
    · simp only [hip, if_neg, if_false, Except.ok.injEq] at hrel
      subst hrel
      rw [show ((pool ++ [i] : List Nat) : Multiset Nat) =
          (pool : Multiset Nat) + (i ::ₘ 0) from rfl]
      rw [add_assoc, Multiset.cons_add, zero_add, Multiset.cons_erase hmem]
      exact hinv

lemma idReachable_inv {idw : Nat} {s : IdPoolState} (h : IdReachable idw s) :
    poolInv idw s := by
  induction h with
  | refl => simp [poolInv, idPoolInit]
  | tail _ hstep ih => exact idStep_inv hstep ih

/-- C9: in every execution in which all acquired IDs have been released
(engine idle, nothing outstanding), the credit pool holds exactly the IDs
`{0 .. 2^ID_WIDTH - 1}`, each exactly once; and returning an ID that is
already in the pool is the fatal `Unexpected burst ID` error
(lines 296-298 / 564-566). -/
theorem id_conservation (idw : Nat) (s : IdPoolState) (hreach : IdReachable idw s)
    (hidle : s.outstanding = 0) :
    (∀ i, s.pool.count i = if i < 2 ^ idw then 1 else 0) ∧
      ∀ (s' : IdPoolState) (i : Nat), i ∈ s'.pool →
        releaseId i s' = Except.error "Unexpected burst ID" := by
  have hinv := idReachable_inv hreach
  unfold poolInv at hinv
  rw [hidle, add_zero] at hinv
  constructor
  · intro i
    have hc : (s.pool : Multiset Nat).count i =
        ((List.range (2 ^ idw) : List Nat) : Multiset Nat).count i := by rw [hinv]
    rw [Multiset.coe_count, Multiset.coe_count] at hc
    rw [hc]
    by_cases hi : i < 2 ^ idw
    · rw [if_pos hi]
      exact List.count_eq_one_of_mem (List.nodup_range _) (List.mem_range.mpr hi)
    · rw [if_neg hi]
      exact List.count_eq_zero_of_not_mem (fun hm => hi (List.mem_range.mp hm))
  · intro s' i hip
    simp [releaseId, hip]

theorem id_conservation_witness :
    (⟨[0], 0⟩ : IdPoolState).pool.count 0 = 1 := by
  have h1 : IdStep (idPoolInit 0) ⟨[], 0 ::ₘ 0⟩ := IdStep.acq _ 0 _ rfl
  have h2 : IdStep ⟨[], 0 ::ₘ 0⟩ ⟨[0], 0⟩ := by
    refine IdStep.rel _ 0 _ (Multiset.mem_cons_self 0 0) ?_
    simp [releaseId, Multiset.erase_cons_head]
  have hr : IdReachable 0 ⟨[0], 0⟩ :=
    Relation.ReflTransGen.tail (Relation.ReflTransGen.tail Relation.ReflTransGen.refl h1) h2
  have hmain := (id_conservation 0 ⟨[0], 0⟩ hr rfl).1 0
  rw [if_pos (by decide : (0 : Nat) < 2 ^ 0)] at hmain
  exact hmain

/-! ### Closed forms for the shaping loop

`coSpec k` is the value of `cycle_offset` before beat `k`, `startSpec` /
`stopSpec` the byte-lane window of beat `k`, `offSpec k` the number of data
bytes consumed before beat `k`, and `baseSpec k` the word-aligned memory
address targeted by beat `k`. -/

def coSpec (W nb A k : Nat) : Nat := (A % W - A % nb + k * nb) % W

def startSpec (W nb A k : Nat) : Nat := if k = 0 then A % W else coSpec W nb A k

def stopSpec (W nb A L k : Nat) : Nat :=
  if k = cyclesOfWrite nb A L - 1 then endOffsetOf W A L else coSpec W nb A k + nb

def offSpec (nb A L k : Nat) : Nat := min L (k * nb - A % nb)

def baseSpec (W nb A k : Nat) : Nat := (A / nb * nb + k * nb) / W * W

def dummyBeat : WBeat := ⟨0, 0, 0, 0, false⟩

section ClosedForm

variable {wl size A L : Nat}

lemma r_le_s (hsz : size ≤ wl) : A % 2 ^ size ≤ A % 2 ^ wl := by
  have h := Nat.mod_mod_of_dvd A (pow_dvd_pow 2 hsz)
  calc A % 2 ^ size = A % 2 ^ wl % 2 ^ size := h.symm
    _ ≤ A % 2 ^ wl := Nat.mod_le _ _

lemma dvd_s_sub_r (hsz : size ≤ wl) : 2 ^ size ∣ (A % 2 ^ wl - A % 2 ^ size) := by
  have h := Nat.mod_mod_of_dvd A (pow_dvd_pow 2 hsz)
  have h2 := Nat.div_add_mod' (A % 2 ^ wl) (2 ^ size)
  refine ⟨A % 2 ^ wl / 2 ^ size, ?_⟩
  rw [mul_comm]
  omega

lemma coSpec_zero (hsz : size ≤ wl) :
    coSpec (2 ^ wl) (2 ^ size) A 0 = A % 2 ^ wl - A % 2 ^ size := by
  unfold coSpec
  rw [Nat.zero_mul, Nat.add_zero]
  exact Nat.mod_eq_of_lt (by
    have := Nat.mod_lt A (Nat.two_pow_pos wl)
    omega)

lemma coSpec_succ (W nb A k : Nat) :
    coSpec W nb A (k + 1) = (coSpec W nb A k + nb) % W := by
  unfold coSpec
  rw [Nat.mod_add_mod]
  congr 1
  have h : (k + 1) * nb = k * nb + nb := by ring
  omega

lemma coSpec_lt (hW : 0 < 2 ^ wl) (k : Nat) : coSpec (2 ^ wl) (2 ^ size) A k < 2 ^ wl :=
  Nat.mod_lt _ hW

lemma coSpec_dvd (hsz : size ≤ wl) (k : Nat) :
    2 ^ size ∣ coSpec (2 ^ wl) (2 ^ size) A k := by
  unfold coSpec
  refine (Nat.dvd_mod_iff (pow_dvd_pow 2 hsz)).mpr ?_
  exact Nat.dvd_add (dvd_s_sub_r hsz) (Dvd.intro_left k rfl)

lemma coSpec_add_le (hsz : size ≤ wl) (k : Nat) :
    coSpec (2 ^ wl) (2 ^ size) A k + 2 ^ size ≤ 2 ^ wl := by
  have h1 := @coSpec_lt wl size A (Nat.two_pow_pos wl) k
  have h2 := coSpec_dvd (A := A) hsz k
  have h3 : 2 ^ size ∣ 2 ^ wl - coSpec (2 ^ wl) (2 ^ size) A k :=
    Nat.dvd_sub' (pow_dvd_pow 2 hsz) h2
  obtain ⟨q, hq⟩ := h3
  have hq1 : 1 ≤ q := by
    rcases Nat.eq_zero_or_pos q with rfl | h
    · omega
    · exact h
  have : 2 ^ size * 1 ≤ 2 ^ size * q := Nat.mul_le_mul_left _ hq1
  omega

lemma cycles_bounds (nb A L : Nat) (hnb : 0 < nb) (hL : 1 ≤ L) :
    1 ≤ cyclesOfWrite nb A L ∧
      L + A % nb ≤ cyclesOfWrite nb A L * nb ∧
      (cyclesOfWrite nb A L - 1) * nb < L + A % nb := by
  unfold cyclesOfWrite
  set q := (L + A % nb + nb - 1) / nb with hq
  have h1 := Nat.div_add_mod' (L + A % nb + nb - 1) nb
  rw [← hq] at h1
  have h2 : (L + A % nb + nb - 1) % nb < nb := Nat.mod_lt _ hnb
  have h3 : (q - 1) * nb = q * nb - nb := by
    rw [Nat.sub_mul, one_mul]
  have hq1 : 1 ≤ q := by
    rw [hq]
    refine (Nat.le_div_iff_mul_le hnb).mpr ?_
    omega
  exact ⟨hq1, by omega, by omega⟩

lemma offSpec_zero (nb A L : Nat) : offSpec nb A L 0 = 0 := by
  unfold offSpec
  simp

lemma offSpec_le (nb A L k : Nat) : offSpec nb A L k ≤ L := min_le_left _ _

lemma offSpec_mono (nb A L k : Nat) : offSpec nb A L k ≤ offSpec nb A L (k + 1) := by
  unfold offSpec
  have h : (k + 1) * nb = k * nb + nb := by ring
  omega

lemma offSpec_last (nb A L : Nat) (hnb : 0 < nb) (hL : 1 ≤ L) :
    offSpec nb A L (cyclesOfWrite nb A L) = L := by
  obtain ⟨h1, h2, h3⟩ := cycles_bounds nb A L hnb hL
  unfold offSpec
  omega

lemma offSpec_mid (nb A L k : Nat) (hnb : 0 < nb) (hL : 1 ≤ L)
    (h1 : 1 ≤ k) (h2 : k ≤ cyclesOfWrite nb A L - 1) :
    offSpec nb A L k = k * nb - A % nb := by
  obtain ⟨hc1, hc2, hc3⟩ := cycles_bounds nb A L hnb hL
  have hmul : k * nb ≤ (cyclesOfWrite nb A L - 1) * nb := Nat.mul_le_mul_right _ h2
  unfold offSpec
  omega

lemma endOffsetOf_le (W A L : Nat) (hW : 0 < W) : endOffsetOf W A L ≤ W := by
  unfold endOffsetOf
  have h1 : (0 : Int) < W := by exact_mod_cast hW
  have h2 := Int.emod_lt_of_pos ((A : Int) + L - 1) h1
  have h3 := Int.emod_nonneg ((A : Int) + L - 1) (by omega : (W : Int) ≠ 0)
  omega

lemma endOffsetOf_eq (W A L : Nat) (hpos : 0 < A + L) :
    endOffsetOf W A L = (A + L - 1) % W + 1 := by
  unfold endOffsetOf
  have h1 : ((A + L - 1 : Nat) : Int) = (A : Int) + L - 1 := by omega
  rw [← h1, ← Int.natCast_mod]
  omega

lemma writeInit_cycleOffset (W nb A : Nat) :
    (writeInit W nb A).cycleOffset = A % W - A % nb := by
  show A / nb * nb - A / W * W = A % W - A % nb
  have h1 := Nat.div_add_mod' A nb
  have h2 := Nat.div_add_mod' A W
  omega

lemma baseSpec_add_coSpec (hsz : size ≤ wl) (k : Nat) :
    baseSpec (2 ^ wl) (2 ^ size) A k + coSpec (2 ^ wl) (2 ^ size) A k =
      A / 2 ^ size * 2 ^ size + k * 2 ^ size := by
  unfold baseSpec coSpec
  have h1 := Nat.div_add_mod' A (2 ^ size)
  have h2 := Nat.div_add_mod' A (2 ^ wl)
  have hrs := r_le_s (A := A) hsz
  set X := A / 2 ^ size * 2 ^ size + k * 2 ^ size with hX
  have hX2 : X = A % 2 ^ wl - A % 2 ^ size + k * 2 ^ size + A / 2 ^ wl * 2 ^ wl := by omega
  have hco : (A % 2 ^ wl - A % 2 ^ size + k * 2 ^ size) % 2 ^ wl = X % 2 ^ wl := by
    conv_rhs => rw [hX2]
    rw [Nat.add_mul_mod_self_right]
  have hdm := Nat.div_add_mod' X (2 ^ wl)
  omega

lemma baseSpec_zero (hsz : size ≤ wl) :
    baseSpec (2 ^ wl) (2 ^ size) A 0 + A % 2 ^ wl = A := by
  unfold baseSpec
  have h1 := Nat.div_add_mod' A (2 ^ size)
  have h2 := Nat.div_add_mod' A (2 ^ wl)
  have hrs := r_le_s (A := A) hsz
  rw [Nat.zero_mul, Nat.add_zero]
  have hlt : A % 2 ^ wl - A % 2 ^ size < 2 ^ wl := by
    have := Nat.mod_lt A (Nat.two_pow_pos wl)
    omega
  have heq : A / 2 ^ size * 2 ^ size = 2 ^ wl * (A / 2 ^ wl) + (A % 2 ^ wl - A % 2 ^ size) := by
    have hflip : 2 ^ wl * (A / 2 ^ wl) = A / 2 ^ wl * 2 ^ wl := Nat.mul_comm _ _
    omega
  rw [heq, Nat.mul_add_div (Nat.two_pow_pos wl), Nat.div_eq_of_lt hlt, Nat.add_zero]
  omega

lemma base_add_start (hsz : size ≤ wl) (hL : 1 ≤ L)
    (k : Nat) (hk : k < cyclesOfWrite (2 ^ size) A L) :
    baseSpec (2 ^ wl) (2 ^ size) A k + startSpec (2 ^ wl) (2 ^ size) A k =
      A + offSpec (2 ^ size) A L k := by
  unfold startSpec
  by_cases hk0 : k = 0
  · subst hk0
    rw [if_pos rfl, offSpec_zero, Nat.add_zero]
    exact baseSpec_zero hsz
  · rw [if_neg hk0, baseSpec_add_coSpec hsz k,
      offSpec_mid _ _ _ _ (Nat.two_pow_pos size) hL (by omega) (by omega)]
    have h1 := Nat.div_add_mod' A (2 ^ size)
    have h2 : 1 * 2 ^ size ≤ k * 2 ^ size := Nat.mul_le_mul_right _ (by omega)
    have h3 : A % 2 ^ size < 2 ^ size := Nat.mod_lt A (Nat.two_pow_pos size)
    omega

lemma base_add_stop (hsz : size ≤ wl) (hL : 1 ≤ L)
    (k : Nat) (hk : k < cyclesOfWrite (2 ^ size) A L) :
    baseSpec (2 ^ wl) (2 ^ size) A k + stopSpec (2 ^ wl) (2 ^ size) A L k =
      A + offSpec (2 ^ size) A L (k + 1) := by
  obtain ⟨hc1, hc2, hc3⟩ := cycles_bounds (2 ^ size) A L (Nat.two_pow_pos size) hL
  have h1 := Nat.div_add_mod' A (2 ^ size)
  have hrlt : A % 2 ^ size < 2 ^ size := Nat.mod_lt A (Nat.two_pow_pos size)
  have hbc := baseSpec_add_coSpec (A := A) hsz k
  unfold stopSpec
  by_cases hlast : k = cyclesOfWrite (2 ^ size) A L - 1
  · rw [if_pos hlast]
    have hoff : offSpec (2 ^ size) A L (k + 1) = L := by
      rw [show k + 1 = cyclesOfWrite (2 ^ size) A L from by omega]
      exact offSpec_last _ _ _ (Nat.two_pow_pos size) hL
    rw [hoff, endOffsetOf_eq _ _ _ (by omega)]
    have hkk : k * 2 ^ size < L + A % 2 ^ size := by
      have := hc3
      rw [← hlast] at this
      exact this
    have hkk2 : L + A % 2 ^ size ≤ (k + 1) * 2 ^ size := by
      have hm : (k + 1) * 2 ^ size = k * 2 ^ size + 2 ^ size := by ring
      have hc2' := hc2
      rw [show cyclesOfWrite (2 ^ size) A L = k + 1 from by omega] at hc2'
      omega
    have hco_le := coSpec_add_le (A := A) hsz k
    have hmod : (A + L - 1) % 2 ^ wl =
        coSpec (2 ^ wl) (2 ^ size) A k + (L + A % 2 ^ size - k * 2 ^ size - 1) := by
      have hdecomp : A + L - 1 = coSpec (2 ^ wl) (2 ^ size) A k +
          (L + A % 2 ^ size - k * 2 ^ size - 1) + baseSpec (2 ^ wl) (2 ^ size) A k := by
        omega
      rw [hdecomp]
      unfold baseSpec
      rw [Nat.add_mul_mod_self_right]
      refine Nat.mod_eq_of_lt ?_
      have hm2 : (k + 1) * 2 ^ size = k * 2 ^ size + 2 ^ size := by ring
      have htail : L + A % 2 ^ size - k * 2 ^ size - 1 < 2 ^ size := by omega
      omega
    rw [hmod]
    have hmul1 : (k + 1) * 2 ^ size = k * 2 ^ size + 2 ^ size := by ring
    omega
  · rw [if_neg hlast,
      offSpec_mid _ _ _ _ (Nat.two_pow_pos size) hL (by omega) (by omega)]
    have hmul : (k + 1) * 2 ^ size = k * 2 ^ size + 2 ^ size := by ring
    omega

end ClosedForm

/-- Loop state of `_process_write` after the first `t` of `cycles` beats. -/
def wPartial (wl size A : Nat) (data : List Nat) (idOf : Nat → Nat) (t : Nat) : WState :=
  (List.range t).foldl
    (writeStep (2 ^ wl) (2 ^ size) (cyclesOfWrite (2 ^ size) A data.length)
      (A % 2 ^ wl) (endOffsetOf (2 ^ wl) A data.length) data idOf)
    (writeInit (2 ^ wl) (2 ^ size) A)

lemma wPartial_full (wl size A : Nat) (data : List Nat) (idOf : Nat → Nat) :
    wPartial wl size A data idOf (cyclesOfWrite (2 ^ size) A data.length) =
      writeRun (2 ^ wl) (2 ^ size) A data idOf := rfl

lemma wPartial_succ (wl size A : Nat) (data : List Nat) (idOf : Nat → Nat) (t : Nat) :
    wPartial wl size A data idOf (t + 1) =
      writeStep (2 ^ wl) (2 ^ size) (cyclesOfWrite (2 ^ size) A data.length)
        (A % 2 ^ wl) (endOffsetOf (2 ^ wl) A data.length) data idOf
        (wPartial wl size A data idOf t) t := by
  unfold wPartial
  rw [List.range_succ, List.foldl_append]
  rfl

lemma writeStep_curAddr (W nb cycles so eo : Nat) (data : List Nat) (idOf : Nat → Nat)
    (s : WState) (k : Nat) :
    (writeStep W nb cycles so eo data idOf s k).curAddr = s.curAddr + nb := by
  unfold writeStep
  dsimp only
  split <;> rfl

lemma writeStep_cycleOffset (W nb cycles so eo : Nat) (data : List Nat) (idOf : Nat → Nat)
    (s : WState) (k : Nat) :
    (writeStep W nb cycles so eo data idOf s k).cycleOffset = (s.cycleOffset + nb) % W := by
  unfold writeStep
  dsimp only
  split <;> rfl

lemma writeStep_offset (W nb cycles so eo : Nat) (data : List Nat) (idOf : Nat → Nat)
    (s : WState) (k : Nat) :
    (writeStep W nb cycles so eo data idOf s k).offset =
      s.offset + ((if k = cycles - 1 then eo else s.cycleOffset + nb) -
        (if k = 0 then so else s.cycleOffset)) := by
  unfold writeStep
  dsimp only
  split <;> rfl

lemma writeStep_beats (W nb cycles so eo : Nat) (data : List Nat) (idOf : Nat → Nat)
    (s : WState) (k : Nat) :
    ∃ w : Bool, (writeStep W nb cycles so eo data idOf s k).beats =
      s.beats ++ [⟨if k = 0 then so else s.cycleOffset,
        if k = cycles - 1 then eo else s.cycleOffset + nb,
        (strb_mask W <<< (if k = 0 then so else s.cycleOffset)) &&& strb_mask W &&&
          (strb_mask W >>> (W - (if k = cycles - 1 then eo else s.cycleOffset + nb))),
        wdataVal data s.offset (if k = 0 then so else s.cycleOffset)
          ((if k = cycles - 1 then eo else s.cycleOffset + nb) -
            (if k = 0 then so else s.cycleOffset)), w⟩] := by
  unfold writeStep
  dsimp only
  split
  · exact ⟨_, rfl⟩
  · exact ⟨_, rfl⟩

/-- Closed form for the per-beat state of the `_process_write` loop. -/
lemma writeRun_cf {wl size A : Nat} (data : List Nat) (idOf : Nat → Nat)
    (hsz : size ≤ wl) (hL : 1 ≤ data.length) :
    ∀ t, t ≤ cyclesOfWrite (2 ^ size) A data.length →
      (wPartial wl size A data idOf t).curAddr =
          A / 2 ^ size * 2 ^ size + t * 2 ^ size ∧
        (wPartial wl size A data idOf t).cycleOffset = coSpec (2 ^ wl) (2 ^ size) A t ∧
        (wPartial wl size A data idOf t).offset = offSpec (2 ^ size) A data.length t ∧
        (wPartial wl size A data idOf t).beats.length = t ∧
        ∀ k, k < t →
          ((wPartial wl size A data idOf t).beats.getD k dummyBeat).start =
              startSpec (2 ^ wl) (2 ^ size) A k ∧
            ((wPartial wl size A data idOf t).beats.getD k dummyBeat).stop =
              stopSpec (2 ^ wl) (2 ^ size) A data.length k ∧
            ((wPartial wl size A data idOf t).beats.getD k dummyBeat).strb =
              (strb_mask (2 ^ wl) <<< startSpec (2 ^ wl) (2 ^ size) A k) &&&
                strb_mask (2 ^ wl) &&&
                (strb_mask (2 ^ wl) >>>
                  (2 ^ wl - stopSpec (2 ^ wl) (2 ^ size) A data.length k)) ∧
            ((wPartial wl size A data idOf t).beats.getD k dummyBeat).wdata =
              wdataVal data (offSpec (2 ^ size) A data.length k)
                (startSpec (2 ^ wl) (2 ^ size) A k)
                (stopSpec (2 ^ wl) (2 ^ size) A data.length k -
                  startSpec (2 ^ wl) (2 ^ size) A k) := by
  intro t
  induction t with
  | zero =>
    intro _
    refine ⟨by simp [wPartial, writeInit], ?_, ?_, rfl, fun k hk => absurd hk (by omega)⟩
    · show (writeInit (2 ^ wl) (2 ^ size) A).cycleOffset = _
      rw [writeInit_cycleOffset, coSpec_zero hsz]
    · show (0 : Nat) = offSpec (2 ^ size) A data.length 0
      rw [offSpec_zero]
  | succ t ih =>
    intro ht
    have htlt : t < cyclesOfWrite (2 ^ size) A data.length := by omega
    obtain ⟨hca, hco, hoff, hlen, hbeats⟩ := ih (by omega)
    rw [wPartial_succ]
    set st := wPartial wl size A data idOf t with hst
    have hstart : (if t = 0 then A % 2 ^ wl else st.cycleOffset) =
        startSpec (2 ^ wl) (2 ^ size) A t := by
      unfold startSpec
      rw [hco]
    have hstop : (if t = cyclesOfWrite (2 ^ size) A data.length - 1 then
          endOffsetOf (2 ^ wl) A data.length
        else st.cycleOffset + 2 ^ size) =
        stopSpec (2 ^ wl) (2 ^ size) A data.length t := by
      unfold stopSpec
      rw [hco]
    have hbs := base_add_start (A := A) hsz hL t htlt
    have hbe := base_add_stop (A := A) hsz hL t htlt
    have hmono := offSpec_mono (2 ^ size) A data.length t
    refine ⟨?_, ?_, ?_, ?_, ?_⟩
    · rw [writeStep_curAddr, hca]
      have hmul : (t + 1) * 2 ^ size = t * 2 ^ size + 2 ^ size := by ring
      omega
    · rw [writeStep_cycleOffset, hco, coSpec_succ]
    · rw [writeStep_offset, hoff, hstart, hstop]
      omega
    · obtain ⟨w, hw⟩ := writeStep_beats (2 ^ wl) (2 ^ size)
        (cyclesOfWrite (2 ^ size) A data.length) (A % 2 ^ wl)
        (endOffsetOf (2 ^ wl) A data.length) data idOf st t
      rw [hw, List.length_append, hlen]
      rfl
    · intro k hk
      obtain ⟨w, hw⟩ := writeStep_beats (2 ^ wl) (2 ^ size)
        (cyclesOfWrite (2 ^ size) A data.length) (A % 2 ^ wl)
        (endOffsetOf (2 ^ wl) A data.length) data idOf st t
      rw [hw]
      by_cases hkt : k < t
      · rw [List.getD_append _ _ _ _ (by omega)]
        exact hbeats k hkt
      · have hkeq : k = t := by omega
        subst hkeq
        rw [List.getD_append_right _ _ _ _ (by omega), hlen, Nat.sub_self]
        rw [hstart, hstop, hoff]
        exact ⟨rfl, rfl, rfl, rfl⟩

/-! ### Bit-level lemmas: strobe, data word packing and unpacking -/

/-- Characterization of the strobe computed at line 208:
bits `[start, stop)` set (for `stop ≤ W`). -/
lemma strb_testBit (W start stop : Nat) (hstop : stop ≤ W) (i : Nat) :
    ((strb_mask W <<< start) &&& strb_mask W &&& (strb_mask W >>> (W - stop))).testBit i =
        true ↔
      start ≤ i ∧ i < stop := by
  unfold strb_mask
  simp only [Nat.testBit_and, Nat.testBit_shiftLeft, Nat.testBit_shiftRight,
    Nat.testBit_two_pow_sub_one, Bool.and_eq_true, decide_eq_true_eq]
  omega

lemma getD_lt_256 (data : List Nat) (hbytes : ∀ b ∈ data, b < 256) (i : Nat) :
    data.getD i 0 < 256 := by
  by_cases h : i < data.length
  · rw [List.getD_eq_getElem _ _ h]
    exact hbytes _ (List.getElem_mem h)
  · rw [List.getD_eq_default _ _ (by omega)]
    omega

lemma wdataVal_testBit_low (data : List Nat) :
    ∀ (m offset start i : Nat), i < start * 8 →
      (wdataVal data offset start m).testBit i = false := by
  intro m
  induction m with
  | zero => intro offset start i _; simp [wdataVal]
  | succ m ih =>
    intro offset start i hi
    unfold wdataVal
    rw [Nat.testBit_or, Nat.testBit_shiftLeft]
    rw [decide_eq_false (by omega : ¬ start * 8 ≤ i)]
    rw [Bool.false_and, Bool.false_or]
    exact ih (offset + 1) (start + 1) i (by omega)

lemma wdataVal_testBit_high (data : List Nat) (hbytes : ∀ b ∈ data, b < 256) :
    ∀ (m offset start j i : Nat), start ≤ j → j < start + m → i < 8 →
      (wdataVal data offset start m).testBit (j * 8 + i) =
        (data.getD (offset + (j - start)) 0).testBit i := by
  intro m
  induction m with
  | zero => intro offset start j i h1 h2 _; omega
  | succ m ih =>
    intro offset start j i h1 h2 hi
    unfold wdataVal
    rw [Nat.testBit_or, Nat.testBit_shiftLeft]
    by_cases hj : j = start
    · rw [decide_eq_true (by omega : start * 8 ≤ j * 8 + i), Bool.true_and]
      rw [wdataVal_testBit_low data m (offset + 1) (start + 1) (j * 8 + i)
        (by omega : j * 8 + i < (start + 1) * 8)]
      rw [Bool.or_false, show j * 8 + i - start * 8 = i from by omega,
        show offset + (j - start) = offset from by omega]
    · have hjs : start + 1 ≤ j := by omega
      rw [decide_eq_true (by omega : start * 8 ≤ j * 8 + i), Bool.true_and]
      have hleft : (data.getD offset 0).testBit (j * 8 + i - start * 8) = false := by
        apply Nat.testBit_lt_two_pow
        have hb : data.getD offset 0 < 256 := getD_lt_256 data hbytes offset
        have hidx : 8 ≤ j * 8 + i - start * 8 := by omega
        calc data.getD offset 0 < 256 := hb
          _ = 2 ^ 8 := by norm_num
          _ ≤ 2 ^ (j * 8 + i - start * 8) := Nat.pow_le_pow_right (by omega) hidx
      rw [hleft, Bool.false_or, ih (offset + 1) (start + 1) j i hjs (by omega) hi]
      congr 2
      omega

/-- Byte-lane extraction from the packed W data word (line 212): lane `j`
of `val` is the caller byte consumed at that lane. -/
lemma wdataVal_extract (data : List Nat) (hbytes : ∀ b ∈ data, b < 256)
    (m offset start j : Nat) (h1 : start ≤ j) (h2 : j < start + m) :
    wdataVal data offset start m >>> (j * 8) &&& 0xff =
      data.getD (offset + (j - start)) 0 := by
  apply Nat.eq_of_testBit_eq
  intro i
  rw [Nat.testBit_and, Nat.testBit_shiftRight,
    show (0xff : Nat) = 2 ^ 8 - 1 from rfl, Nat.testBit_two_pow_sub_one]
  by_cases hi : i < 8
  · rw [decide_eq_true hi, Bool.and_true, Nat.add_comm (j * 8) i]
    rw [Nat.add_comm i (j * 8)]
    exact wdataVal_testBit_high data hbytes m offset start j i h1 h2 hi
  · rw [decide_eq_false hi, Bool.and_false]
    symm
    apply Nat.testBit_lt_two_pow
    calc data.getD (offset + (j - start)) 0 < 256 := getD_lt_256 data hbytes _
      _ = 2 ^ 8 := by norm_num
      _ ≤ 2 ^ i := Nat.pow_le_pow_right (by omega) (by omega)

/-- Byte extraction from the word returned by the slave memory model. -/
lemma wordAt_extract (mem : Nat → Nat) (hmem : ∀ x, mem x < 256) :
    ∀ (w base j : Nat), j < w →
      wordAt mem base w >>> (j * 8) &&& 0xff = mem (base + j) := by
  intro w
  induction w with
  | zero => intro base j hj; omega
  | succ w ih =>
    intro base j hj
    cases j with
    | zero =>
      show wordAt mem base (w + 1) >>> 0 &&& 0xff = mem (base + 0)
      rw [Nat.shiftRight_zero, show (0xff : Nat) = 2 ^ 8 - 1 from rfl,
        Nat.and_pow_two_sub_one_eq_mod]
      show (mem base + 256 * wordAt mem (base + 1) w) % 2 ^ 8 = mem (base + 0)
      rw [show (2 : Nat) ^ 8 = 256 from rfl, Nat.add_mul_mod_self_left,
        Nat.mod_eq_of_lt (hmem base)]
      rfl
    | succ j =>
      show wordAt mem base (w + 1) >>> ((j + 1) * 8) &&& 0xff = mem (base + (j + 1))
      have hshift : wordAt mem base (w + 1) >>> ((j + 1) * 8) =
          wordAt mem (base + 1) w >>> (j * 8) := by
        rw [Nat.shiftRight_eq_div_pow, Nat.shiftRight_eq_div_pow]
        show (mem base + 256 * wordAt mem (base + 1) w) / 2 ^ ((j + 1) * 8) = _
        rw [show (j + 1) * 8 = 8 + j * 8 from by ring, pow_add,
          ← Nat.div_div_eq_div_mul]
        congr 1
        rw [show (2 : Nat) ^ 8 = 256 from rfl]
        rw [Nat.add_mul_div_left _ _ (by norm_num : (0 : Nat) < 256),
          Nat.div_eq_of_lt (hmem base), Nat.zero_add]
      rw [hshift, ih (base + 1) j (by omega)]
      congr 1
      omega

lemma stopSpec_le {wl size A L : Nat} (hsz : size ≤ wl) (k : Nat) :
    stopSpec (2 ^ wl) (2 ^ size) A L k ≤ 2 ^ wl := by
  unfold stopSpec
  split
  · exact endOffsetOf_le _ _ _ (Nat.two_pow_pos wl)
  · exact coSpec_add_le hsz k

/-- C4: for every W beat emitted by the write engine, strobe bit `i` is set
iff `start ≤ i < stop` - exactly the byte lanes that carry caller-supplied
data on that beat (lines 208-213). -/
theorem write_strobe_correct (wl size A : Nat) (data : List Nat) (idOf : Nat → Nat)
    (hsz : size ≤ wl) (hL : 1 ≤ data.length) :
    ∀ w ∈ (writeRun (2 ^ wl) (2 ^ size) A data idOf).beats,
      ∀ i, w.strb.testBit i = true ↔ (w.start ≤ i ∧ i < w.stop) := by
  intro w hw i
  have hcf := writeRun_cf (A := A) data idOf hsz hL
    (cyclesOfWrite (2 ^ size) A data.length) le_rfl
  rw [wPartial_full] at hcf
  obtain ⟨-, -, -, hlen, hbeats⟩ := hcf
  obtain ⟨k, hk, hwk⟩ := List.mem_iff_getElem.mp hw
  have hkc : k < cyclesOfWrite (2 ^ size) A data.length := by omega
  have hgd : (writeRun (2 ^ wl) (2 ^ size) A data idOf).beats.getD k dummyBeat = w := by
    rw [List.getD_eq_getElem _ _ hk, hwk]
  obtain ⟨hs, hp, hstrb, -⟩ := hbeats k hkc
  rw [hgd] at hs hp hstrb
  rw [hstrb, hs, hp]
  exact strb_testBit _ _ _ (stopSpec_le hsz k) i

theorem write_strobe_correct_witness :
    (0 : Nat) ≤ 2 ∧ 1 ≤ ([0xAA, 0xBB] : List Nat).length ∧
      ∀ w ∈ (writeRun (2 ^ 2) (2 ^ 0) 0x1003 [0xAA, 0xBB] (fun t => t)).beats,
        ∀ i, w.strb.testBit i = true ↔ (w.start ≤ i ∧ i < w.stop) :=
  ⟨by decide, by decide,
    write_strobe_correct 2 0 0x1003 [0xAA, 0xBB] (fun t => t) (by decide) (by decide)⟩

lemma beats_prefix_sum {wl size A : Nat} (data : List Nat) (idOf : Nat → Nat)
    (hsz : size ≤ wl) (hL : 1 ≤ data.length) :
    ∀ t, t ≤ cyclesOfWrite (2 ^ size) A data.length →
      (((writeRun (2 ^ wl) (2 ^ size) A data idOf).beats.take t).map
        (fun w => w.stop - w.start)).sum = offSpec (2 ^ size) A data.length t := by
  have hcf := writeRun_cf (A := A) data idOf hsz hL
    (cyclesOfWrite (2 ^ size) A data.length) le_rfl
  rw [wPartial_full] at hcf
  obtain ⟨-, -, -, hlen, hbeats⟩ := hcf
  intro t
  induction t with
  | zero => intro _; simp [offSpec_zero]
  | succ t ih =>
    intro ht
    have htlt : t < cyclesOfWrite (2 ^ size) A data.length := by omega
    have htlen : t < (writeRun (2 ^ wl) (2 ^ size) A data idOf).beats.length := by omega
    rw [List.take_succ, List.getElem?_eq_getElem htlen]
    rw [List.map_append, List.sum_append, ih (by omega)]
    obtain ⟨hs, hp, -, -⟩ := hbeats t htlt
    rw [List.getD_eq_getElem _ _ htlen] at hs hp
    have hbs := base_add_start (A := A) hsz hL t htlt
    have hbe := base_add_stop (A := A) hsz hL t htlt
    have hmono := offSpec_mono (2 ^ size) A data.length t
    simp only [Option.toList_some, List.map_cons, List.map_nil, List.sum_cons,
      List.sum_nil, Nat.add_zero]
    rw [hs, hp]
    omega

/-- C10: the byte-lane windows of the write beats have widths summing to
exactly `len(data)`: the shaping loop (lines 210-213) consumes every caller
byte exactly once in order and its index into `data` never overruns. -/
theorem write_exact_consumption (wl size A : Nat) (data : List Nat) (idOf : Nat → Nat)
    (hsz : size ≤ wl) (hL : 1 ≤ data.length) :
    (writeRun (2 ^ wl) (2 ^ size) A data idOf).offset = data.length ∧
      (((writeRun (2 ^ wl) (2 ^ size) A data idOf).beats).map
        (fun w => w.stop - w.start)).sum = data.length ∧
      ∀ t, (((writeRun (2 ^ wl) (2 ^ size) A data idOf).beats.take t).map
        (fun w => w.stop - w.start)).sum ≤ data.length := by
  have hcf := writeRun_cf (A := A) data idOf hsz hL
    (cyclesOfWrite (2 ^ size) A data.length) le_rfl
  rw [wPartial_full] at hcf
  obtain ⟨-, -, hoff, hlen, -⟩ := hcf
  have hsum := beats_prefix_sum (A := A) data idOf hsz hL
  have hfull : (((writeRun (2 ^ wl) (2 ^ size) A data idOf).beats).map
      (fun w => w.stop - w.start)).sum = data.length := by
    have h := hsum (cyclesOfWrite (2 ^ size) A data.length) le_rfl
    have htk : (writeRun (2 ^ wl) (2 ^ size) A data idOf).beats.take
        (cyclesOfWrite (2 ^ size) A data.length) =
        (writeRun (2 ^ wl) (2 ^ size) A data idOf).beats := by
      rw [← hlen]
      exact List.take_length _
    rw [htk] at h
    rw [h, offSpec_last _ _ _ (Nat.two_pow_pos size) hL]
  refine ⟨?_, hfull, ?_⟩
  · rw [hoff, offSpec_last _ _ _ (Nat.two_pow_pos size) hL]
  · intro t
    by_cases ht : t ≤ cyclesOfWrite (2 ^ size) A data.length
    · rw [hsum t ht]
      exact offSpec_le _ _ _ _
    · rw [List.take_of_length_le (by omega)]
      rw [hfull]

theorem write_exact_consumption_witness :
    (0 : Nat) ≤ 2 ∧ 1 ≤ ([0xAA, 0xBB, 0xCB, 0xDD, 0xEE] : List Nat).length ∧
      ((writeRun (2 ^ 2) (2 ^ 0) 0x1003 [0xAA, 0xBB, 0xCB, 0xDD, 0xEE]
          (fun t => t)).offset = 5 ∧
        (((writeRun (2 ^ 2) (2 ^ 0) 0x1003 [0xAA, 0xBB, 0xCB, 0xDD, 0xEE]
            (fun t => t)).beats).map (fun w => w.stop - w.start)).sum = 5 ∧
        ∀ t, (((writeRun (2 ^ 2) (2 ^ 0) 0x1003 [0xAA, 0xBB, 0xCB, 0xDD, 0xEE]
          (fun t => t)).beats.take t).map (fun w => w.stop - w.start)).sum ≤ 5) :=
  ⟨by decide, by decide,
    write_exact_consumption 2 0 0x1003 [0xAA, 0xBB, 0xCB, 0xDD, 0xEE] (fun t => t)
      (by decide) (by decide)⟩

/-! ### Burst coverage: the planned bursts tile the beat sequence -/

def burstsLenSum (bs : List Burst) : Nat := (bs.map Burst.len).sum

/-- The bursts starting from flat beat index `k` are consecutive:
each burst's AW address continues where the previous one stopped. -/
def BurstChain (nb aligned : Nat) : Nat → List Burst → Prop
  | _, [] => True
  | k, b :: bs => b.addr = aligned + k * nb ∧ BurstChain nb aligned (k + b.len) bs

lemma burstChain_append (nb aligned : Nat) (b : Burst) :
    ∀ (bs : List Burst) (k : Nat), BurstChain nb aligned k bs →
      b.addr = aligned + (k + burstsLenSum bs) * nb →
      BurstChain nb aligned k (bs ++ [b]) := by
  intro bs
  induction bs with
  | nil =>
    intro k _ hb
    refine ⟨?_, trivial⟩
    simpa [burstsLenSum] using hb
  | cons x rest ih =>
    intro k hch hb
    obtain ⟨hx, hrest⟩ := hch
    refine ⟨hx, ih (k + x.len) hrest ?_⟩
    rw [hb]
    have hsum : burstsLenSum (x :: rest) = x.len + burstsLenSum rest := by
      simp [burstsLenSum]
    rw [hsum]
    ring_nf

lemma burstLen_le_rem (nb a rem : Nat) (hnb : 0 < nb) :
    (min (min rem (min (max max_burst_len 1) 256) * nb) (0x1000 - (a &&& 0xfff)) + nb - 1) / nb ≤
      min rem (min (max max_burst_len 1) 256) := by
  have h1 : min (min rem (min (max max_burst_len 1) 256) * nb) (0x1000 - (a &&& 0xfff)) + nb - 1 ≤
      min rem (min (max max_burst_len 1) 256) * nb + nb - 1 := by
    have := min_le_left (min rem (min (max max_burst_len 1) 256) * nb) (0x1000 - (a &&& 0xfff))
    omega
  calc (min (min rem (min (max max_burst_len 1) 256) * nb) (0x1000 - (a &&& 0xfff)) + nb - 1) / nb
      ≤ (min rem (min (max max_burst_len 1) 256) * nb + nb - 1) / nb := Nat.div_le_div_right h1
    _ = min rem (min (max max_burst_len 1) 256) := by
        rw [Nat.mul_comm, show nb * min rem (min (max max_burst_len 1) 256) + nb - 1 =
          nb * min rem (min (max max_burst_len 1) 256) + (nb - 1) from by omega,
          Nat.mul_add_div hnb, Nat.div_eq_of_lt (by omega), Nat.add_zero]

/-- The write planner's `burst_list` tiles the `cycles` beats: burst
addresses are consecutive and the lengths sum to the position reached. -/
lemma writeRun_chain {wl size A : Nat} (data : List Nat) (idOf : Nat → Nat) :
    ∀ t, t ≤ cyclesOfWrite (2 ^ size) A data.length →
      (wPartial wl size A data idOf t).curAddr =
          A / 2 ^ size * 2 ^ size + t * 2 ^ size ∧
        burstsLenSum (wPartial wl size A data idOf t).bursts =
          t + ((wPartial wl size A data idOf t).burstLength -
            (wPartial wl size A data idOf t).n) ∧
        (wPartial wl size A data idOf t).burstLength - (wPartial wl size A data idOf t).n ≤
          cyclesOfWrite (2 ^ size) A data.length - t ∧
        BurstChain (2 ^ size) (A / 2 ^ size * 2 ^ size) 0
          (wPartial wl size A data idOf t).bursts := by
  intro t
  induction t with
  | zero =>
    intro _
    refine ⟨by simp [wPartial, writeInit], ?_, ?_, trivial⟩
    · simp [wPartial, writeInit, burstsLenSum]
    · simp [wPartial, writeInit]
  | succ t ih =>
    intro ht
    have htlt : t < cyclesOfWrite (2 ^ size) A data.length := by omega
    obtain ⟨hca, hsum, hrem, hchain⟩ := ih (by omega)
    rw [wPartial_succ]
    set st := wPartial wl size A data idOf t with hst
    have hnb : 0 < 2 ^ size := Nat.two_pow_pos size
    by_cases hcond : st.n ≥ st.burstLength
    · have hbl := burstLen_bounds (2 ^ size) st.curAddr
        (cyclesOfWrite (2 ^ size) A data.length - t) hnb (by omega)
      have hble := burstLen_le_rem (2 ^ size) st.curAddr
        (cyclesOfWrite (2 ^ size) A data.length - t) hnb
      have hble2 : min (cyclesOfWrite (2 ^ size) A data.length - t)
          (min (max max_burst_len 1) 256) ≤
          cyclesOfWrite (2 ^ size) A data.length - t := min_le_left _ _
      simp only [writeStep, ge_iff_le, if_pos hcond]
      have hmul : (t + 1) * 2 ^ size = t * 2 ^ size + 2 ^ size := by ring
      refine ⟨by rw [hca]; omega, ?_, by omega, ?_⟩
      · rw [show burstsLenSum (st.bursts ++
            [⟨idOf st.t, st.curAddr,
              (min (min (cyclesOfWrite (2 ^ size) A data.length - t)
                  (min (max max_burst_len 1) 256) * 2 ^ size)
                (0x1000 - (st.curAddr &&& 0xfff)) + 2 ^ size - 1) / 2 ^ size⟩]) =
            burstsLenSum st.bursts +
              (min (min (cyclesOfWrite (2 ^ size) A data.length - t)
                  (min (max max_burst_len 1) 256) * 2 ^ size)
                (0x1000 - (st.curAddr &&& 0xfff)) + 2 ^ size - 1) / 2 ^ size from by
          simp [burstsLenSum]]
        omega
      · refine burstChain_append _ _ _ _ 0 hchain ?_
        show st.curAddr = A / 2 ^ size * 2 ^ size + (0 + burstsLenSum st.bursts) * 2 ^ size
        rw [hca]
        congr 1
        have : burstsLenSum st.bursts = t := by omega
        rw [this]
        ring
    · simp only [writeStep, ge_iff_le, if_neg hcond]
      have hmul : (t + 1) * 2 ^ size = t * 2 ^ size + 2 ^ size := by ring
      exact ⟨by rw [hca]; omega, by omega, by omega, hchain⟩

/-! ### Flattening the burst-structured memory application -/

/-- Applying the flat beat sequence starting at flat index `k`:
beat `k` hits the word-aligned address of `aligned + k * nb`. -/
def applyFlat (W nb aligned : Nat) : List WBeat → Nat → (Nat → Nat) → Nat → Nat
  | [], _, mem => mem
  | w :: ws, k, mem =>
      applyFlat W nb aligned ws (k + 1)
        (applyWBeat W ((aligned + k * nb) / W * W) w.wdata w.strb mem)

lemma ramWriteBurst_eq_applyFlat (W nb aligned k0 : Nat) :
    ∀ (ws : List WBeat) (i : Nat) (mem : Nat → Nat),
      ramWriteBurst W nb (aligned + k0 * nb) ws i mem =
        applyFlat W nb aligned ws (k0 + i) mem := by
  intro ws
  induction ws with
  | nil => intro i mem; rfl
  | cons w ws ih =>
    intro i mem
    show ramWriteBurst W nb (aligned + k0 * nb) (w :: ws) i mem = _
    unfold ramWriteBurst applyFlat
    rw [show aligned + k0 * nb + i * nb = aligned + (k0 + i) * nb from by ring]
    rw [ih (i + 1) _, ← Nat.add_assoc k0 i 1]

lemma applyFlat_append (W nb aligned : Nat) :
    ∀ (ws1 ws2 : List WBeat) (k : Nat) (mem : Nat → Nat),
      applyFlat W nb aligned (ws1 ++ ws2) k mem =
        applyFlat W nb aligned ws2 (k + ws1.length) (applyFlat W nb aligned ws1 k mem) := by
  intro ws1
  induction ws1 with
  | nil => intro ws2 k mem; simp [applyFlat]
  | cons w ws1 ih =>
    intro ws2 k mem
    show applyFlat W nb aligned (w :: (ws1 ++ ws2)) k mem = _
    rw [show applyFlat W nb aligned (w :: (ws1 ++ ws2)) k mem =
        applyFlat W nb aligned (ws1 ++ ws2) (k + 1)
          (applyWBeat W ((aligned + k * nb) / W * W) w.wdata w.strb mem) from rfl]
    rw [ih]
    rw [show applyFlat W nb aligned (w :: ws1) k mem =
        applyFlat W nb aligned ws1 (k + 1)
          (applyWBeat W ((aligned + k * nb) / W * W) w.wdata w.strb mem) from rfl]
    simp only [List.length_cons]
    rw [show k + 1 + ws1.length = k + (ws1.length + 1) from by omega]

lemma ramWriteBursts_eq_applyFlat (W nb aligned : Nat) :
    ∀ (bs : List Burst) (ws : List WBeat) (k0 : Nat) (mem : Nat → Nat),
      BurstChain nb aligned k0 bs → burstsLenSum bs = ws.length →
      ramWriteBursts W nb bs ws mem = applyFlat W nb aligned ws k0 mem := by
  intro bs
  induction bs with
  | nil =>
    intro ws k0 mem _ hlen
    have hws : ws = [] := List.eq_nil_of_length_eq_zero (by
      simp [burstsLenSum] at hlen
      omega)
    subst hws
    rfl
  | cons b bs ih =>
    intro ws k0 mem hch hlen
    obtain ⟨haddr, hrest⟩ := hch
    have hsum : b.len + burstsLenSum bs = ws.length := by
      simpa [burstsLenSum] using hlen
    have hble : b.len ≤ ws.length := by omega
    show ramWriteBursts W nb (b :: bs) ws mem = _
    unfold ramWriteBursts
    rw [haddr, ramWriteBurst_eq_applyFlat W nb aligned k0 (ws.take b.len) 0 mem,
      Nat.add_zero]
    rw [ih (ws.drop b.len) (k0 + b.len) _ hrest (by simp; omega)]
    conv_rhs => rw [show ws = ws.take b.len ++ ws.drop b.len from
      (List.take_append_drop b.len ws).symm]
    rw [applyFlat_append]
    rw [show (ws.take b.len).length = b.len from by rw [List.length_take]; omega]

/-- Everything the memory argument needs to know about beat `k`. -/
def GoodBeat (wl size A : Nat) (data : List Nat) (k : Nat) (w : WBeat) : Prop :=
  w.stop ≤ 2 ^ wl ∧
    baseSpec (2 ^ wl) (2 ^ size) A k + w.start = A + offSpec (2 ^ size) A data.length k ∧
    baseSpec (2 ^ wl) (2 ^ size) A k + w.stop =
      A + offSpec (2 ^ size) A data.length (k + 1) ∧
    (∀ i, w.strb.testBit i = true ↔ (w.start ≤ i ∧ i < w.stop)) ∧
    ∀ j, w.start ≤ j → j < w.stop →
      w.wdata >>> (j * 8) &&& 0xff =
        data.getD (offSpec (2 ^ size) A data.length k + (j - w.start)) 0

lemma writeRun_goodBeats {wl size A : Nat} (data : List Nat) (idOf : Nat → Nat)
    (hsz : size ≤ wl) (hL : 1 ≤ data.length) (hbytes : ∀ b ∈ data, b < 256) :
    ∀ k, k < cyclesOfWrite (2 ^ size) A data.length →
      GoodBeat wl size A data k
        ((writeRun (2 ^ wl) (2 ^ size) A data idOf).beats.getD k dummyBeat) := by
  intro k hk
  have hcf := writeRun_cf (A := A) data idOf hsz hL
    (cyclesOfWrite (2 ^ size) A data.length) le_rfl
  rw [wPartial_full] at hcf
  obtain ⟨-, -, -, hlen, hbeats⟩ := hcf
  obtain ⟨hs, hp, hstrb, hval⟩ := hbeats k hk
  have hbs := base_add_start (A := A) hsz hL k hk
  have hbe := base_add_stop (A := A) hsz hL k hk
  have hmono := offSpec_mono (2 ^ size) A data.length k
  refine ⟨?_, ?_, ?_, ?_, ?_⟩
  · rw [hp]
    exact stopSpec_le hsz k
  · rw [hs]
    exact hbs
  · rw [hp]
    exact hbe
  · intro i
    rw [hstrb, hs, hp]
    exact strb_testBit _ _ _ (stopSpec_le hsz k) i
  · intro j hj1 hj2
    rw [hs] at hj1
    rw [hp] at hj2
    rw [hval, hs]
    exact wdataVal_extract data hbytes _ _ _ _ hj1 (by omega)

/-- Applying the remaining beats from flat index `t` turns the memory into
the written data on `[A + offSpec t, A + len)` and leaves it unchanged
elsewhere. -/
lemma applyFlat_char {wl size A : Nat} (data : List Nat) (hL : 1 ≤ data.length) :
    ∀ (ws : List WBeat) (t : Nat) (mem : Nat → Nat),
      t + ws.length = cyclesOfWrite (2 ^ size) A data.length →
      (∀ j, j < ws.length → GoodBeat wl size A data (t + j) (ws.getD j dummyBeat)) →
      ∀ x, applyFlat (2 ^ wl) (2 ^ size) (A / 2 ^ size * 2 ^ size) ws t mem x =
        if A + offSpec (2 ^ size) A data.length t ≤ x ∧ x < A + data.length then
          data.getD (x - A) 0
        else mem x := by
  intro ws
  induction ws with
  | nil =>
    intro t mem hlen hgood x
    show mem x = _
    have hoff : offSpec (2 ^ size) A data.length t = data.length := by
      rw [show t = cyclesOfWrite (2 ^ size) A data.length from by simpa using hlen]
      exact offSpec_last _ _ _ (Nat.two_pow_pos size) hL
    rw [hoff, if_neg (by omega)]
  | cons w ws ih =>
    intro t mem hlen hgood x
    have hg := hgood 0 (by simp)
    rw [show (w :: ws).getD 0 dummyBeat = w from rfl, Nat.add_zero] at hg
    obtain ⟨hstop, hbs, hbe, hstrb, hval⟩ := hg
    unfold baseSpec at hbs hbe
    rw [show applyFlat (2 ^ wl) (2 ^ size) (A / 2 ^ size * 2 ^ size) (w :: ws) t mem =
        applyFlat (2 ^ wl) (2 ^ size) (A / 2 ^ size * 2 ^ size) ws (t + 1)
          (applyWBeat (2 ^ wl)
            ((A / 2 ^ size * 2 ^ size + t * 2 ^ size) / 2 ^ wl * 2 ^ wl)
            w.wdata w.strb mem) from rfl]
    have hlen' : t + 1 + ws.length = cyclesOfWrite (2 ^ size) A data.length := by
      simp at hlen
      omega
    have hgood' : ∀ j, j < ws.length →
        GoodBeat wl size A data (t + 1 + j) (ws.getD j dummyBeat) := by
      intro j hj
      have h := hgood (j + 1) (by simp; omega)
      rwa [show (w :: ws).getD (j + 1) dummyBeat = ws.getD j dummyBeat from rfl,
        show t + (j + 1) = t + 1 + j from by omega] at h
    rw [ih (t + 1) _ hlen' hgood' x]
    have hx1 : applyWBeat (2 ^ wl)
        ((A / 2 ^ size * 2 ^ size + t * 2 ^ size) / 2 ^ wl * 2 ^ wl)
        w.wdata w.strb mem x =
        if A + offSpec (2 ^ size) A data.length t ≤ x ∧
            x < A + offSpec (2 ^ size) A data.length (t + 1) then
          data.getD (x - A) 0
        else mem x := by
      unfold applyWBeat
      set base := (A / 2 ^ size * 2 ^ size + t * 2 ^ size) / 2 ^ wl * 2 ^ wl with hbase
      by_cases hcond : base ≤ x ∧ x < base + 2 ^ wl ∧ w.strb.testBit (x - base) = true
      · rw [if_pos hcond]
        obtain ⟨hc1, hc2, hc3⟩ := hcond
        have hwin := (hstrb (x - base)).mp hc3
        rw [if_pos (by omega)]
        rw [hval (x - base) hwin.1 hwin.2]
        congr 1
        omega
      · rw [if_neg hcond]
        rw [if_neg ?_]
        rintro ⟨h1, h2⟩
        exact hcond ⟨by omega, by omega, (hstrb (x - base)).mpr ⟨by omega, by omega⟩⟩
    rw [hx1]
    have hm1 := offSpec_mono (2 ^ size) A data.length t
    have hle1 := offSpec_le (2 ^ size) A data.length (t + 1)
    by_cases hA : A + offSpec (2 ^ size) A data.length t ≤ x ∧ x < A + data.length
    · by_cases hB : A + offSpec (2 ^ size) A data.length (t + 1) ≤ x ∧ x < A + data.length
      · rw [if_pos hB, if_pos hA]
      · rw [if_neg hB, if_pos (show A + offSpec (2 ^ size) A data.length t ≤ x ∧
            x < A + offSpec (2 ^ size) A data.length (t + 1) from by omega),
          if_pos hA]
    · rw [if_neg (show ¬ (A + offSpec (2 ^ size) A data.length (t + 1) ≤ x ∧
          x < A + data.length) from by omega),
        if_neg (show ¬ (A + offSpec (2 ^ size) A data.length t ≤ x ∧
          x < A + offSpec (2 ^ size) A data.length (t + 1)) from by omega),
        if_neg hA]

/-- End-to-end effect of one write request on the backing memory: the
addressed bytes become the caller's data, everything else is untouched. -/
lemma writeToMem_char {wl size A : Nat} (data : List Nat) (idOf : Nat → Nat)
    (mem : Nat → Nat) (hsz : size ≤ wl) (hL : 1 ≤ data.length)
    (hbytes : ∀ b ∈ data, b < 256) :
    ∀ x, writeToMem wl size A data idOf mem x =
      if A ≤ x ∧ x < A + data.length then data.getD (x - A) 0 else mem x := by
  intro x
  unfold writeToMem
  have hchain := @writeRun_chain wl size A data idOf
    (cyclesOfWrite (2 ^ size) A data.length) le_rfl
  rw [wPartial_full] at hchain
  obtain ⟨-, hsum, hrem, hch⟩ := hchain
  have hcf := writeRun_cf (A := A) data idOf hsz hL
    (cyclesOfWrite (2 ^ size) A data.length) le_rfl
  rw [wPartial_full] at hcf
  obtain ⟨-, -, -, hlen, -⟩ := hcf
  have hSum2 : burstsLenSum (writeRun (2 ^ wl) (2 ^ size) A data idOf).bursts =
      (writeRun (2 ^ wl) (2 ^ size) A data idOf).beats.length := by omega
  rw [ramWriteBursts_eq_applyFlat (2 ^ wl) (2 ^ size) (A / 2 ^ size * 2 ^ size) _ _ 0 _
    hch hSum2]
  have hgood : ∀ j, j < (writeRun (2 ^ wl) (2 ^ size) A data idOf).beats.length →
      GoodBeat wl size A data (0 + j)
        ((writeRun (2 ^ wl) (2 ^ size) A data idOf).beats.getD j dummyBeat) := by
    intro j hj
    rw [Nat.zero_add]
    exact writeRun_goodBeats data idOf hsz hL hbytes j (by omega)
  rw [applyFlat_char data hL _ 0 mem (by omega) hgood x]
  rw [offSpec_zero, Nat.add_zero]

lemma writeToMem_bytes {wl size A : Nat} (data : List Nat) (idOf : Nat → Nat)
    (mem : Nat → Nat) (hsz : size ≤ wl) (hL : 1 ≤ data.length)
    (hbytes : ∀ b ∈ data, b < 256) (hmem : ∀ x, mem x < 256) :
    ∀ x, writeToMem wl size A data idOf mem x < 256 := by
  intro x
  rw [writeToMem_char data idOf mem hsz hL hbytes x]
  split
  · exact getD_lt_256 data hbytes _
  · exact hmem x

/-! ### Read-side reassembly: closed form -/

lemma foldl_pairs_flatten {α β : Type _} (f : β → α → β) (ls : List (List α)) :
    ∀ s : β, ls.foldl (fun st rs => rs.foldl f st) s = ls.flatten.foldl f s := by
  induction ls with
  | nil => intro s; rfl
  | cons l ls ih =>
    intro s
    show ls.foldl (fun st rs => rs.foldl f st) (l.foldl f s) = ((l :: ls).flatten).foldl f s
    rw [List.flatten_cons, List.foldl_append]
    exact ih (l.foldl f s)

lemma resps_flatten {wl size A : Nat} (mem : Nat → Nat) :
    ∀ (bs : List Burst) (k0 : Nat),
      BurstChain (2 ^ size) (A / 2 ^ size * 2 ^ size) k0 bs →
      (bs.map (fun b => ramReadBurst (2 ^ wl) (2 ^ size) mem b.addr b.len)).flatten =
        (List.range (burstsLenSum bs)).map
          (fun i => wordAt mem (baseSpec (2 ^ wl) (2 ^ size) A (k0 + i)) (2 ^ wl)) := by
  intro bs
  induction bs with
  | nil => intro k0 _; simp [burstsLenSum]
  | cons b bs ih =>
    intro k0 hch
    obtain ⟨haddr, hrest⟩ := hch
    rw [List.map_cons, List.flatten_cons, ih (k0 + b.len) hrest]
    have h1 : ramReadBurst (2 ^ wl) (2 ^ size) mem b.addr b.len =
        (List.range b.len).map
          (fun i => wordAt mem (baseSpec (2 ^ wl) (2 ^ size) A (k0 + i)) (2 ^ wl)) := by
      unfold ramReadBurst
      apply List.map_congr_left
      intro i _
      congr 1
      unfold baseSpec
      rw [haddr]
      congr 1
      ring
    rw [h1]
    have hsum : burstsLenSum (b :: bs) = b.len + burstsLenSum bs := by simp [burstsLenSum]
    rw [hsum, List.range_add, List.map_append, List.map_map]
    congr 1
    apply List.map_congr_left
    intro i _
    show wordAt mem (baseSpec (2 ^ wl) (2 ^ size) A (k0 + b.len + i)) (2 ^ wl) =
      wordAt mem (baseSpec (2 ^ wl) (2 ^ size) A (k0 + (b.len + i))) (2 ^ wl)
    congr 2
    omega

/-- Reassembly state of `_process_read_resp` after the first `t` beats,
fed with the words the slave memory returns for the planned bursts. -/
def rrPartial (wl size A : Nat) (mem : Nat → Nat) (t : Nat) : RRState :=
  ((List.range t).map
    (fun k => wordAt mem (baseSpec (2 ^ wl) (2 ^ size) A k) (2 ^ wl))).foldl
    (readRespBeat (2 ^ wl) (2 ^ size) (A % 2 ^ wl)) (readRespInit (2 ^ wl) (2 ^ size) A)

lemma rrPartial_succ (wl size A : Nat) (mem : Nat → Nat) (t : Nat) :
    rrPartial wl size A mem (t + 1) =
      readRespBeat (2 ^ wl) (2 ^ size) (A % 2 ^ wl) (rrPartial wl size A mem t)
        (wordAt mem (baseSpec (2 ^ wl) (2 ^ size) A t) (2 ^ wl)) := by
  unfold rrPartial
  rw [List.range_succ, List.map_append, List.foldl_append]
  rfl

lemma range_map_append_eq {α : Type _} (f : Nat → α) (g : Nat → α) (a b n : Nat)
    (h : a + b = n) (hg : ∀ i < b, g i = f (a + i)) :
    (List.range a).map f ++ (List.range b).map g = (List.range n).map f := by
  subst h
  rw [List.range_add, List.map_append, List.map_map]
  congr 1
  apply List.map_congr_left
  intro i hi
  exact hg i (List.mem_range.mp hi)

/-- Closed form for the read reassembly fed from the byte memory: after `t`
beats the buffer holds the bytes at `A, A+1, ...`. -/
lemma rrPartial_cf {wl size A : Nat} (mem : Nat → Nat) (hsz : size ≤ wl)
    (hmem : ∀ x, mem x < 256) :
    ∀ t, (rrPartial wl size A mem t).cycleOffset = coSpec (2 ^ wl) (2 ^ size) A t ∧
      (rrPartial wl size A mem t).first = decide (t = 0) ∧
      (rrPartial wl size A mem t).buf =
        (List.range (t * 2 ^ size - A % 2 ^ size)).map (fun m => mem (A + m)) := by
  have hrlt : A % 2 ^ size < 2 ^ size := Nat.mod_lt A (Nat.two_pow_pos size)
  have hrs := r_le_s (A := A) hsz
  intro t
  induction t with
  | zero =>
    refine ⟨?_, rfl, ?_⟩
    · show A / 2 ^ size * 2 ^ size - A / 2 ^ wl * 2 ^ wl = _
      rw [coSpec_zero hsz]
      have h1 := Nat.div_add_mod' A (2 ^ size)
      have h2 := Nat.div_add_mod' A (2 ^ wl)
      omega
    · show ([] : List Nat) = _
      rw [show 0 * 2 ^ size - A % 2 ^ size = 0 from by omega]
      simp
  | succ t ih =>
    obtain ⟨hco, hfirst, hbuf⟩ := ih
    rw [rrPartial_succ]
    unfold readRespBeat
    dsimp only
    rw [hco, hfirst, hbuf]
    refine ⟨?_, rfl, ?_⟩
    · exact (coSpec_succ _ _ _ _).symm
    · have hcole := coSpec_add_le (A := A) hsz t
      have hbco := baseSpec_add_coSpec (A := A) hsz t
      have h1 := Nat.div_add_mod' A (2 ^ size)
      by_cases ht0 : t = 0
      · subst ht0
        rw [if_pos (by simp)]
        have hb0 := baseSpec_zero (A := A) hsz
        have hco0 := coSpec_zero (A := A) hsz
        refine range_map_append_eq _ _ _ _ _ (by omega) ?_
        intro i hi
        rw [wordAt_extract mem hmem (2 ^ wl) _ (A % 2 ^ wl + i) (by omega)]
        congr 1
        omega
      · rw [if_neg (by simpa using ht0)]
        have hmul : (t + 1) * 2 ^ size = t * 2 ^ size + 2 ^ size := by ring
        have hmul2 : 1 * 2 ^ size ≤ t * 2 ^ size := Nat.mul_le_mul_right _ (by omega)
        refine range_map_append_eq _ _ _ _ _ (by omega) ?_
        intro i hi
        rw [wordAt_extract mem hmem (2 ^ wl) _ (coSpec (2 ^ wl) (2 ^ size) A t + i)
          (by omega)]
        congr 1
        omega

lemma max_burst_size_pow (wl : Nat) : max_burst_size (2 ^ wl) = wl := by
  unfold max_burst_size
  rcases Nat.eq_zero_or_pos wl with rfl | hpos
  · simp [Nat.size_zero]
  · apply le_antisymm
    · exact Nat.size_le.mpr (by have := Nat.two_pow_pos wl; omega)
    · have e : wl - 1 + 1 = wl := by omega
      have h2 : (2 : Nat) ^ wl = 2 ^ (wl - 1) * 2 := by
        conv_lhs => rw [← e, pow_succ]
      have h3 := Nat.two_pow_pos (wl - 1)
      have h1 : 2 ^ (wl - 1) ≤ 2 ^ wl - 1 := by omega
      have := Nat.lt_size.mpr h1
      omega

/-- The full read-response pipeline (planner bursts, slave words, per-burst
reassembly) equals the flat per-beat reassembly. -/
lemma readPipeline_buf_eq {wl size A L : Nat} (idOf : Nat → Nat) (mem : Nat → Nat) :
    readRespRun (2 ^ wl) (2 ^ size) A
      ((readRun (2 ^ size) A L idOf).bursts.map
        (fun b => ramReadBurst (2 ^ wl) (2 ^ size) mem b.addr b.len)) =
      rrPartial wl size A mem (cyclesOfWrite (2 ^ size) A L) := by
  unfold readRespRun rrPartial
  have hplan := plan_bursts_eq (2 ^ wl) (2 ^ size) A (List.replicate L 0) idOf
    (Nat.two_pow_pos size)
  rw [List.length_replicate] at hplan
  rw [← hplan]
  have hchain := @writeRun_chain wl size A (List.replicate L 0) idOf
    (cyclesOfWrite (2 ^ size) A (List.replicate L 0).length) (le_refl _)
  rw [wPartial_full] at hchain
  simp only [List.length_replicate] at hchain
  obtain ⟨-, hsum, hrem, hch⟩ := hchain
  have hS : burstsLenSum
      (writeRun (2 ^ wl) (2 ^ size) A (List.replicate L 0) idOf).bursts =
      cyclesOfWrite (2 ^ size) A L := by omega
  rw [foldl_pairs_flatten, resps_flatten mem _ 0 hch, hS]
  simp only [Nat.zero_add]

lemma readFromMem_eq {wl size A L : Nat} (idOf : Nat → Nat) (mem : Nat → Nat) :
    readFromMem wl size A L idOf mem =
      (rrPartial wl size A mem (cyclesOfWrite (2 ^ size) A L)).buf.take L := by
  show (readRespRun (2 ^ wl) (2 ^ size) A
      ((readRun (2 ^ size) A L idOf).bursts.map
        (fun b => ramReadBurst (2 ^ wl) (2 ^ size) mem b.addr b.len))).buf.take L = _
  rw [readPipeline_buf_eq idOf mem]

lemma range_take (m n : Nat) (h : m ≤ n) : (List.range n).take m = List.range m := by
  apply List.ext_getElem
  · simp
    omega
  · intro i h1 h2
    simp [List.getElem_take]

/-- C7: for every completed read request of `length ≥ 1` bytes against the
byte memory, the assembled buffer holds at least `length` bytes, the
published data is its first `length` bytes (`data = data[:length]`,
line 571), so the caller receives exactly `length` bytes. -/
theorem read_result_length (wl size A L : Nat) (idOf : Nat → Nat) (mem : Nat → Nat)
    (hL : 1 ≤ L) (hsz : size ≤ max_burst_size (2 ^ wl)) (hmem : ∀ x, mem x < 256) :
    L ≤ (readRespRun (2 ^ wl) (2 ^ size) A
        ((readRun (2 ^ size) A L idOf).bursts.map
          (fun b => ramReadBurst (2 ^ wl) (2 ^ size) mem b.addr b.len))).buf.length ∧
      readFromMem wl size A L idOf mem =
        ((readRespRun (2 ^ wl) (2 ^ size) A
          ((readRun (2 ^ size) A L idOf).bursts.map
            (fun b => ramReadBurst (2 ^ wl) (2 ^ size) mem b.addr b.len))).buf).take L ∧
      (readFromMem wl size A L idOf mem).length = L := by
  have hszwl : size ≤ wl := by rwa [max_burst_size_pow] at hsz
  obtain ⟨hc1, hc2, hc3⟩ := cycles_bounds (2 ^ size) A L (Nat.two_pow_pos size) hL
  have hbuf := (rrPartial_cf (A := A) mem hszwl hmem (cyclesOfWrite (2 ^ size) A L)).2.2
  have hlen : (rrPartial wl size A mem (cyclesOfWrite (2 ^ size) A L)).buf.length =
      cyclesOfWrite (2 ^ size) A L * 2 ^ size - A % 2 ^ size := by
    rw [hbuf, List.length_map, List.length_range]
  refine ⟨?_, rfl, ?_⟩
  · rw [readPipeline_buf_eq idOf mem, hlen]
    omega
  · rw [readFromMem_eq idOf mem, List.length_take, hlen]
    omega

theorem read_result_length_witness :
    (1 : Nat) ≤ 5 ∧ (readFromMem 2 0 0x1003 5 (fun t => t) (fun _ => 0)).length = 5 :=
  ⟨by decide,
    (read_result_length 2 0 0x1003 5 (fun t => t) (fun _ => 0) (by decide)
      (Nat.zero_le _) (fun _ => by norm_num)).2.2⟩

/-- C1: round-trip through the backing memory - for every request with
`1 ≤ len(data) ≤ 1024` bytes of byte values and every
`size_log2 ≤ max_burst_size`, writing and then reading back the same range
through the burst planner, the byte-lane shaping, the strobed slave memory
and the read reassembly returns exactly the written bytes. -/
theorem write_read_roundtrip (wl size A : Nat) (data : List Nat)
    (idOfW idOfR : Nat → Nat) (mem : Nat → Nat)
    (hL : 1 ≤ data.length) (hL2 : data.length ≤ 1024)
    (hsz : size ≤ max_burst_size (2 ^ wl))
    (hbytes : ∀ b ∈ data, b < 256) (hmem : ∀ x, mem x < 256) :
    readFromMem wl size A data.length idOfR (writeToMem wl size A data idOfW mem) =
      data := by
  have hszwl : size ≤ wl := by rwa [max_burst_size_pow] at hsz
  have hmem2b : ∀ x, writeToMem wl size A data idOfW mem x < 256 :=
    writeToMem_bytes data idOfW mem hszwl hL hbytes hmem
  rw [readFromMem_eq idOfR _]
  rw [(rrPartial_cf (A := A) (writeToMem wl size A data idOfW mem) hszwl hmem2b
    (cyclesOfWrite (2 ^ size) A data.length)).2.2]
  obtain ⟨hc1, hc2, hc3⟩ := cycles_bounds (2 ^ size) A data.length
    (Nat.two_pow_pos size) hL
  rw [← List.map_take, range_take data.length _ (by omega)]
  apply List.ext_getElem
  · simp
  · intro i h1 h2
    simp only [List.getElem_map, List.getElem_range]
    rw [writeToMem_char data idOfW mem hszwl hL hbytes (A + i)]
    have hi : i < data.length := by simpa using h2
    rw [if_pos ⟨by omega, by omega⟩, show A + i - A = i from by omega,
      List.getD_eq_getElem _ _ hi]

theorem write_read_roundtrip_witness :
    readFromMem 2 0 0x1003 5 (fun t => t)
        (writeToMem 2 0 0x1003 [0xAA, 0xBB, 0xCB, 0xDD, 0xEE] (fun t => t) (fun _ => 0)) =
      [0xAA, 0xBB, 0xCB, 0xDD, 0xEE] :=
  write_read_roundtrip 2 0 0x1003 [0xAA, 0xBB, 0xCB, 0xDD, 0xEE] (fun t => t)
    (fun t => t) (fun _ => 0) (by decide) (by decide) (Nat.zero_le _) (by decide)
    (fun _ => by norm_num)

end Axi
